import Mathlib

/-!
Verification of the retained-mode terminal rendering engine of `hyper-cmd`
(`src/hyper_core/ui/engine.py`, `containers.py`, `renderer.py`).

The Python code is shallowly embedded: machine integers become `ℤ`/`ℕ`,
Python floats (flex weights) become `ℚ`, exceptions become explicit
outcome flags, and the mutable object graph becomes either a functional
tree (for the render recursion, which follows the ownership tree) or an
explicit heap `ℕ → HComp` (for the attach/detach operations, which
mutate parent/child references of several objects at once).
-/

namespace HyperCmd

/-- `RenderState` enumeration from `engine.py` (CLEAN/DIRTY/INVALIDATED/HIDDEN).
`HIDDEN` is only ever produced by the `render_state` property when the
visibility flag is off; the stored `_render_state` field is never assigned
`HIDDEN` by the code. -/
inductive RState where
  | CLEAN
  | DIRTY
  | INVALIDATED
  | HIDDEN
deriving DecidableEq, Repr

/-- The state update performed on a component's own `_render_state` by
`UIComponent.mark_dirty` (engine.py lines 79-86): if the state is not
`INVALIDATED` it becomes `DIRTY`, otherwise it is left alone. -/
def markDirtyStep (s : RState) : RState :=
  if s = RState.INVALIDATED then s else RState.DIRTY

/-- The state update performed on a component's own `_render_state` by
`UIComponent.invalidate` (engine.py line 94). -/
def invalidateStep (_s : RState) : RState :=
  RState.INVALIDATED

/-- A call that touches a single component's `_render_state`:
`mark_dirty` or `invalidate`. -/
inductive DirtyOp where
  | md
  | inv
deriving DecidableEq, Repr

/-- Apply one `mark_dirty`/`invalidate` call to a stored render state. -/
def applyDirtyOp (s : RState) (op : DirtyOp) : RState :=
  match op with
  | DirtyOp.md => markDirtyStep s
  | DirtyOp.inv => invalidateStep s

/-- Apply a sequence of `mark_dirty`/`invalidate` calls. -/
def applyDirtyOps (s : RState) (ops : List DirtyOp) : RState :=
  ops.foldl applyDirtyOp s

/-! ## FlexContainer space allocation (`containers.py` lines 273-323)

`_calculate_allocations` works on the list of visible children in order;
we embed it as a function of the per-child configuration lookups
(`self._child_configs.get(child, {})` becomes an `Option ChildConfig`)
and the main-axis budget (`ctx.height` or `ctx.width`). -/

/-- One entry of `FlexContainer._child_configs`, as stored by
`add_child_with_config` (containers.py lines 166-181). -/
structure ChildConfig where
  fixed_size : Option ℤ
  flex : ℚ
  min_size : ℤ
  max_size : Option ℤ
deriving DecidableEq, Repr

/-- `config.get("fixed_size")`: `None` both when the child has no config
entry and when the entry's fixed size is `None`. -/
def fixedOf : Option ChildConfig → Option ℤ
  | none => none
  | some c => c.fixed_size

/-- `config.get("flex", 1.0)`: a child with no config entry defaults to
flex weight 1.0; a configured child always has the stored value (the
`add_child_with_config` default is 0.0). -/
def flexWeight : Option ChildConfig → ℚ
  | none => 1
  | some c => c.flex

/-- `config.get("min_size", 0)`. -/
def minOf : Option ChildConfig → ℤ
  | none => 0
  | some c => c.min_size

/-- `config.get("max_size")`. -/
def maxOf : Option ChildConfig → Option ℤ
  | none => none
  | some c => c.max_size

/-- Python `int(q)` on a real value: truncation toward zero. -/
def pyInt (q : ℚ) : ℤ :=
  if 0 ≤ q then ⌊q⌋ else ⌈q⌉

/-- One entry of the `allocations` list built by `_calculate_allocations`:
the child's configuration lookup together with the dictionary
`{"size": ..., "flex": ...}`. -/
structure Alloc where
  cfg : Option ChildConfig
  size : ℤ
  flexw : ℚ
deriving DecidableEq, Repr

/-- First pass of `_calculate_allocations`: allocate fixed sizes
(`min(fixed_size, remaining_space)`, earlier children first) and
accumulate the total flex weight of the flexible children.  Returns the
allocation list, the remaining space, and the total flex weight. -/
def pass1 : List (Option ChildConfig) → ℤ → List Alloc × ℤ × ℚ
  | [], rem => ([], rem, 0)
  | c :: cs, rem =>
    match fixedOf c with
    | some f =>
      let s := min f rem
      let r := pass1 cs (rem - s)
      (⟨c, s, 0⟩ :: r.1, r.2.1, r.2.2)
    | none =>
      let w := flexWeight c
      let r := pass1 cs rem
      (⟨c, 0, w⟩ :: r.1, r.2.1, r.2.2 + w)

/-- The size computed by the second-pass loop body for one
positive-weight entry: `int(remaining_space * (flex / total_flex))`
clamped below by `min_size` and above by `max_size` when present. -/
def flexSize (rem : ℤ) (tf : ℚ) (a : Alloc) : ℤ :=
  let fs := pyInt ((rem : ℚ) * (a.flexw / tf))
  let fs2 := max fs (minOf a.cfg)
  match maxOf a.cfg with
  | some m => min fs2 m
  | none => fs2

/-- The body of the second-pass loop for one allocation entry: an entry
with positive flex weight receives the clamped proportional size; any
other entry is left unchanged. -/
def flexAssign (rem : ℤ) (tf : ℚ) (a : Alloc) : Alloc :=
  if 0 < a.flexw then ⟨a.cfg, flexSize rem tf a, a.flexw⟩ else a

/-- Second pass of `_calculate_allocations`: runs only when the total
flex weight and the remaining space are both positive. -/
def pass2 (allocs : List Alloc) (rem : ℤ) (tf : ℚ) : List Alloc :=
  if 0 < tf ∧ 0 < rem then allocs.map (flexAssign rem tf) else allocs

/-- The number of allocation entries holding a positive flex weight. -/
def countPosA (l : List Alloc) : ℕ :=
  (l.filter fun a => decide (0 < a.flexw)).length

/-- The number of flexible (non-fixed) children with a positive flex
weight. -/
def posFlexCount (cfgs : List (Option ChildConfig)) : ℕ :=
  (cfgs.filter fun c => (fixedOf c).isNone && decide (0 < flexWeight c)).length

/-- The total flex weight accumulated by the first pass (it does not
depend on the available space). -/
def totalFlex (cfgs : List (Option ChildConfig)) : ℚ :=
  (pass1 cfgs 0).2.2

/-- `FlexContainer._calculate_allocations` over the (already filtered)
list of visible children's configuration lookups and the main-axis
budget `total_space`. -/
def calculateAllocations (cfgs : List (Option ChildConfig)) (totalSpace : ℤ) :
    List Alloc :=
  let r := pass1 cfgs totalSpace
  pass2 r.1 r.2.1 r.2.2

/-- The final allocated sizes, in child order. -/
def allocSizes (cfgs : List (Option ChildConfig)) (totalSpace : ℤ) : List ℤ :=
  (calculateAllocations cfgs totalSpace).map Alloc.size

/-! ## MockBackend / MockWindow (`renderer.py` lines 299-429)

The mock backend's shared screen buffer is a character-and-attribute grid
of size `height × width`; a `MockWindow` is an offset sub-view described
by a `WindowSpec`.  We model the buffer as a total function on absolute
integer coordinates; the Python lists only hold cells with
`0 ≤ y < height` and `0 ≤ x < width`, and every write is guarded by
exactly that bound, so out-of-range cells of the model are never
touched. -/

/-- One cell of the mock screen buffer: `screen_buffer` and
`attribute_buffer` entry. -/
structure Cell where
  ch : Char
  attr : ℤ
deriving DecidableEq, Repr

/-- The mock screen buffer as a total function on absolute coordinates. -/
def MockBuf : Type := ℤ → ℤ → Cell

/-- The all-blank initial buffer (`" "` characters, attribute 0). -/
def blankBuf : MockBuf := fun _ _ => ⟨' ', 0⟩

/-- Point update of the buffer. -/
def bufSet (b : MockBuf) (y x : ℤ) (c : Cell) : MockBuf :=
  fun y' x' => if y' = y ∧ x' = x then c else b y' x'

/-- `WindowSpec` from `renderer.py`. -/
structure WindowSpec where
  width : ℤ
  height : ℤ
  x : ℤ
  y : ℤ
deriving DecidableEq, Repr

/-- The write loop of `MockWindow.add_str`: for each character, write it
iff `0 ≤ abs_y < height` and `0 ≤ abs_x + i < width` (the backend's
grid bounds). -/
def writeCells (hgt wid : ℤ) (absy : ℤ) (attrs : ℤ) :
    ℤ → List Char → MockBuf → MockBuf
  | _, [], b => b
  | curx, c :: rest, b =>
    let b' := if 0 ≤ absy ∧ absy < hgt ∧ 0 ≤ curx ∧ curx < wid then
        bufSet b absy curx ⟨c, attrs⟩
      else b
    writeCells hgt wid absy attrs (curx + 1) rest b'

/-- `MockWindow.add_str` (renderer.py lines 394-402): the absolute
position is the window spec's offset plus the caller's coordinates, and
each character is clipped against the backend grid. -/
def mockAddStr (hgt wid : ℤ) (spec : WindowSpec) (b : MockBuf)
    (y x : ℤ) (text : List Char) (attrs : ℤ) : MockBuf :=
  writeCells hgt wid (spec.y + y) attrs (spec.x + x) text b

/-! ## BorderedContainer title drawing (`containers.py` lines 131-146) -/

/-- Python `s[:k]` for an integer `k`: a negative `k` counts from the
end of the list (`s[:-1]` drops the last element). -/
def pySliceTo (s : List Char) (k : ℤ) : List Char :=
  if 0 ≤ k then s.take k.toNat else s.take ((s.length : ℤ) + k).toNat

/-- `f" {title} "`. -/
def formatTitle (title : List Char) : List Char :=
  ' ' :: (title ++ [' '])

/-- The three-character ellipsis appended by `_draw_title`. -/
def ellipsis : List Char := ['.', '.', '.']

/-- The text drawn by `BorderedContainer._draw_title` for a context of
width `width`, or `none` when the title is omitted (empty title or
`width < 6`).  Mirrors containers.py lines 131-140: format the title
with surrounding spaces, and when it exceeds `width - 4`, take
`s[: (width - 4) - 3]` (a Python slice, so a negative bound counts from
the end) and append `"..."`. -/
def drawTitleText (width : ℤ) (title : List Char) : Option (List Char) :=
  if title = [] ∨ width < 6 then none
  else
    let t := formatTitle title
    let maxw := width - 4
    if maxw < (t.length : ℤ) then some (pySliceTo t (maxw - 3) ++ ellipsis)
    else some t

/-- The column at which `_draw_title` draws a title string of length
`tlen`: `ctx.x + (ctx.width - len(title_text)) // 2` with Python floor
division. -/
def drawTitleX (ctxx width tlen : ℤ) : ℤ :=
  ctxx + Int.fdiv (width - tlen) 2

/-- Modelled from the claim's words (C8): the formatted title, when
longer than `width - 4`, is "truncated to (width minus 4) minus 3
characters with an ellipsis appended" -- i.e. the first
`(width - 4) - 3` characters (a count, hence at least zero) followed by
`"..."`. -/
def claimTitleText (width : ℤ) (title : List Char) : Option (List Char) :=
  if title = [] ∨ width < 6 then none
  else
    let t := formatTitle title
    let maxw := width - 4
    if maxw < (t.length : ℤ) then some (t.take (maxw - 3).toNat ++ ellipsis)
    else some t

/-! ## The mutable component graph as a heap

`UIComponent.add_child` / `remove_child` (engine.py lines 107-118) and
`BorderedContainer.set_content` (containers.py lines 36-43) mutate the
`_children` list of one object and (for add/remove) the `_parent`
reference of another, so we model components as heap cells addressed by
`ℕ` identities.  `mark_dirty` recurses along `_parent` references and
`invalidate` along `_children`; both would diverge on a cyclic graph,
exactly as the Python would, so the embeddings take a fuel argument
that is irrelevant on well-formed (acyclic) heaps. -/

/-- The mutable fields of a `UIComponent` (plus `BorderedContainer`'s
`_content`, which is `none` for every other component kind). -/
structure HComp where
  rstate : RState
  visible : Bool
  children : List ℕ
  parent : Option ℕ
  content : Option ℕ
deriving DecidableEq, Repr

/-- The object heap. -/
def Heap : Type := ℕ → HComp

/-- A freshly constructed `UIComponent` (engine.py lines 64-70):
state `DIRTY`, visible, no children, no parent. -/
def freshComp : HComp :=
  ⟨RState.DIRTY, true, [], none, none⟩

/-- A heap of freshly constructed components. -/
def initHeap : Heap := fun _ => freshComp

/-- Point update of the heap. -/
def hset (h : Heap) (i : ℕ) (c : HComp) : Heap :=
  fun j => if j = i then c else h j

/-- `UIComponent.mark_dirty` (engine.py lines 79-86): update the own
state via `markDirtyStep` (set `DIRTY` unless `INVALIDATED`), then
recurse unconditionally into the parent reference. -/
def markDirtyH : ℕ → ℕ → Heap → Heap
  | 0, _, h => h
  | fuel + 1, i, h =>
    let h1 := hset h i { h i with rstate := markDirtyStep (h i).rstate }
    match (h i).parent with
    | none => h1
    | some p => markDirtyH fuel p h1

/-- `UIComponent.invalidate` (engine.py lines 92-98): set own state to
`INVALIDATED`, then invalidate every child in order. -/
def invalidateH : ℕ → ℕ → Heap → Heap
  | 0, _, h => h
  | fuel + 1, i, h =>
    let h1 := hset h i { h i with rstate := RState.INVALIDATED }
    (h i).children.foldl (fun acc c => invalidateH fuel c acc) h1

/-- `UIComponent.mark_clean` (engine.py lines 88-90). -/
def markCleanH (i : ℕ) (h : Heap) : Heap :=
  hset h i { h i with rstate := RState.CLEAN }

/-- `UIComponent.add_child` (engine.py lines 107-111): set the child's
parent reference, append the child, and mark self dirty. -/
def addChildH (fuel : ℕ) (p c : ℕ) (h : Heap) : Heap :=
  let h1 := hset h c { h c with parent := some p }
  let h2 := hset h1 p { h1 p with children := (h1 p).children ++ [c] }
  markDirtyH fuel p h2

/-- `UIComponent.remove_child` (engine.py lines 113-118): if the child is
present, clear its parent reference, remove the first occurrence from
the children list, and mark self dirty. -/
def removeChildH (fuel : ℕ) (p c : ℕ) (h : Heap) : Heap :=
  if c ∈ (h p).children then
    let h1 := hset h c { h c with parent := none }
    let h2 := hset h1 p { h1 p with children := (h1 p).children.erase c }
    markDirtyH fuel p h2
  else h

/-- `BorderedContainer.set_content` (containers.py lines 36-43): remove
the previous content from the children list (without touching its
parent reference), store and append the new content (without setting
its parent reference), and mark self dirty. -/
def setContentH (fuel : ℕ) (b c : ℕ) (h : Heap) : Heap :=
  let h1 := match (h b).content with
    | some old => hset h b { h b with children := (h b).children.erase old }
    | none => h
  let h2 := hset h1 b
    { h1 b with content := some c, children := (h1 b).children ++ [c] }
  markDirtyH fuel b h2

/-- An external call that touches render states: `mark_dirty()` or
`invalidate()` on some component. -/
inductive HOp where
  | md (i : ℕ)
  | inv (i : ℕ)
deriving DecidableEq, Repr

/-- Run one state-touching call on the heap. -/
def applyHOp (fuel : ℕ) (h : Heap) : HOp → Heap
  | HOp.md i => markDirtyH fuel i h
  | HOp.inv i => invalidateH fuel i h

/-- Run a sequence of `mark_dirty`/`invalidate` calls on the heap. -/
def applyHOps (fuel : ℕ) (ops : List HOp) (h : Heap) : Heap :=
  ops.foldl (applyHOp fuel) h

/-- The chain of ancestors of `i` obtained by following parent
references (nearest parent first), with fuel. -/
def parentChain : ℕ → ℕ → Heap → List ℕ
  | 0, _, _ => []
  | fuel + 1, i, h =>
    match (h i).parent with
    | none => []
    | some p => p :: parentChain fuel p h

/-- The tree invariant claimed by C3 for heaps built through the public
attach/detach operations: a component in some children list has its
parent reference pointing at exactly that holder, no component is held
by two parents, and no children list holds a component twice.  (The
first conjunct's contrapositive says a component with a cleared parent
reference is in nobody's children list.) -/
def TreeInv (h : Heap) : Prop :=
  (∀ p c, c ∈ (h p).children → (h c).parent = some p) ∧
  (∀ p₁ p₂ c, c ∈ (h p₁).children → c ∈ (h p₂).children → p₁ = p₂) ∧
  (∀ p c, (h p).children.count c ≤ 1)

/-- A component that is not currently attached anywhere. -/
def Unattached (h : Heap) (c : ℕ) : Prop :=
  (h c).parent = none ∧ ∀ p, c ∉ (h p).children

/-- Heaps reachable from the all-fresh heap by `add_child` of a
currently unattached component and by `remove_child`. -/
inductive BuiltDisciplined : Heap → Prop where
  | init : BuiltDisciplined initHeap
  | add (fuel p c : ℕ) (h : Heap) :
      BuiltDisciplined h → Unattached h c →
      BuiltDisciplined (addChildH fuel p c h)
  | rem (fuel p c : ℕ) (h : Heap) :
      BuiltDisciplined h → BuiltDisciplined (removeChildH fuel p c h)

/-- Example heap: component 2 attached under 1, 1 attached under 0,
through `add_child`. -/
def exChainHeap : Heap :=
  addChildH 3 0 1 (addChildH 3 1 2 initHeap)

/-- Example heap: component 1 attached to bordered container 0 through
`set_content`, then both marked clean (as a successful render pass
would). -/
def exContentHeap : Heap :=
  markCleanH 0 (markCleanH 1 (setContentH 3 0 1 initHeap))

/-! ## The render recursion (`engine.py` lines 134-165)

`UIComponent.render` recurses over the ownership tree (`_children`), so
we model it over a functional tree.  A node carries the mutable
per-component fields relevant to rendering plus two static facts: an
identity (used to log which components' `render_content` ran) and
whether its `render_content` raises (modelling an arbitrary drawing
error; the base-class step in this file is the default
`_render_children`, which passes the parent's context through
unchanged).  `render`'s recursion terminates structurally in Python; as
with `mark_dirty`, the embedding carries a fuel argument that is
irrelevant as soon as it is at least the tree's depth. -/

/-- The render-relevant fields of one `UIComponent`. -/
structure NodeData where
  id : ℕ
  rstate : RState
  lastSize : ℤ × ℤ
  lastPos : ℤ × ℤ
  visible : Bool
  raises : Bool
deriving DecidableEq, Repr

/-- `RenderContext` restricted to the fields the render recursion reads
(`x`, `y`, `width`, `height`); the window, theme and frame-time fields
are opaque to the dirty/geometry logic. -/
structure Ctx where
  x : ℤ
  y : ℤ
  width : ℤ
  height : ℤ
deriving DecidableEq, Repr

mutual

/-- A component subtree. -/
inductive RTree where
  | node : NodeData → RTreeList → RTree

/-- An ordered `_children` list. -/
inductive RTreeList where
  | nil : RTreeList
  | cons : RTree → RTreeList → RTreeList

end

/-- The data at a tree's root. -/
def treeData : RTree → NodeData
  | RTree.node d _ => d

/-- The root's stored `_render_state`. -/
def rootState (t : RTree) : RState :=
  (treeData t).rstate

/-- The `render_state` property (engine.py lines 72-77): `HIDDEN` when
the visibility flag is off, the stored state otherwise. -/
def renderStateOf (d : NodeData) : RState :=
  if d.visible then d.rstate else RState.HIDDEN

mutual

/-- `UIComponent.invalidate` on the ownership tree: set own state to
`INVALIDATED` and recurse into all children. -/
def invalidateT : RTree → RTree
  | RTree.node d cs =>
    RTree.node { d with rstate := RState.INVALIDATED } (invalidateList cs)

def invalidateList : RTreeList → RTreeList
  | RTreeList.nil => RTreeList.nil
  | RTreeList.cons t ts => RTreeList.cons (invalidateT t) (invalidateList ts)

end

mutual

/-- Tree depth (nodes on the longest root-to-leaf path). -/
def depthT : RTree → ℕ
  | RTree.node _ cs => depthL cs + 1

def depthL : RTreeList → ℕ
  | RTreeList.nil => 0
  | RTreeList.cons t ts => max (depthT t) (depthL ts)

end

mutual

/-- Every node's stored state needs a repaint (`DIRTY`/`INVALIDATED`),
as in a freshly assembled tree. -/
def needT : RTree → Bool
  | RTree.node d cs =>
    (decide (d.rstate = RState.DIRTY) || decide (d.rstate = RState.INVALIDATED))
      && needL cs

def needL : RTreeList → Bool
  | RTreeList.nil => true
  | RTreeList.cons t ts => needT t && needL ts

end

mutual

/-- No node's `render_content` raises. -/
def noRaiseT : RTree → Bool
  | RTree.node d cs => !d.raises && noRaiseL cs

def noRaiseL : RTreeList → Bool
  | RTreeList.nil => true
  | RTreeList.cons t ts => noRaiseT t && noRaiseL ts

end

mutual

/-- All node identities, in preorder. -/
def idsT : RTree → List ℕ
  | RTree.node d cs => d.id :: idsL cs

def idsL : RTreeList → List ℕ
  | RTreeList.nil => []
  | RTreeList.cons t ts => idsT t ++ idsL ts

end

mutual

/-- Identities of the nodes reached by the render recursion: a hidden
node cuts off its whole subtree. -/
def visListT : RTree → List ℕ
  | RTree.node d cs =>
    if renderStateOf d = RState.HIDDEN then [] else d.id :: visListL cs

def visListL : RTreeList → List ℕ
  | RTreeList.nil => []
  | RTreeList.cons t ts => visListT t ++ visListL ts

end

/-- The geometry bookkeeping of `render`: when the context's size or
position differs from the remembered ones, the node is invalidated
(`invalidate()` on self, see `invalidateT` for the push-down) and the
new geometry is stored. -/
def geomUpdate (d : NodeData) (ctx : Ctx) : NodeData :=
  { d with
      rstate := RState.INVALIDATED,
      lastSize := (ctx.width, ctx.height),
      lastPos := (ctx.x, ctx.y) }

/-- The `render`-if-needed step on the node's own data: when the state
is `DIRTY` or `INVALIDATED`, `render_content` runs (its id is logged);
inside the `try:`, `mark_clean()` executes only when `render_content`
did not raise, and a raised exception is caught and discarded. -/
def renderNodeData (d : NodeData) : NodeData × List ℕ :=
  if d.rstate = RState.DIRTY ∨ d.rstate = RState.INVALIDATED then
    (if d.raises then d else { d with rstate := RState.CLEAN }, [d.id])
  else (d, [])

/-- Whether the context matches the node's remembered geometry. -/
def geomOk (d : NodeData) (ctx : Ctx) : Prop :=
  (ctx.width, ctx.height) = d.lastSize ∧ (ctx.x, ctx.y) = d.lastPos

instance (d : NodeData) (ctx : Ctx) : Decidable (geomOk d ctx) := by
  rw [geomOk]; infer_instance

mutual

/-- `UIComponent.render` (engine.py lines 134-159): return immediately
when the effective state is `HIDDEN`; invalidate self (recursively) and
store the new geometry when the context's size or position differs from
the remembered ones; if the state is now `DIRTY` or `INVALIDATED`, run
`render_content` (logged by id) inside `try:` — when it raises, the
`mark_clean()` call is skipped and the exception is discarded; finally
recurse into the non-hidden children with the same context (the default
`_render_children`, engine.py lines 161-165).  Returns the updated tree
and the log of `render_content` invocations. -/
def renderT : ℕ → RTree → Ctx → RTree × List ℕ
  | 0, t, _ => (t, [])
  | fuel + 1, RTree.node d cs, ctx =>
    if renderStateOf d = RState.HIDDEN then (RTree.node d cs, [])
    else if geomOk d ctx then
      let p2 := renderNodeData d
      let pc := renderList fuel cs ctx
      (RTree.node p2.1 pc.1, p2.2 ++ pc.2)
    else
      let p2 := renderNodeData (geomUpdate d ctx)
      let pc := renderList fuel (invalidateList cs) ctx
      (RTree.node p2.1 pc.1, p2.2 ++ pc.2)
termination_by fuel t _ => (fuel, sizeOf t)

/-- `UIComponent._render_children`: render every child whose
`get_render_state()` is not `HIDDEN`, passing the same context. -/
def renderList : ℕ → RTreeList → Ctx → RTreeList × List ℕ
  | _, RTreeList.nil, _ => (RTreeList.nil, [])
  | fuel, RTreeList.cons t ts, ctx =>
    let hd := if renderStateOf (treeData t) = RState.HIDDEN
      then (t, ([] : List ℕ))
      else renderT fuel t ctx
    let tl := renderList fuel ts ctx
    (RTreeList.cons hd.1 tl.1, hd.2 ++ tl.2)
termination_by fuel ts _ => (fuel, sizeOf ts)

end

/-! ## RenderEngine (`engine.py` lines 168-312) -/

/-- The flags an engine frame raises at the backend: whether the root
window's buffer was cleared, whether the backend display was refreshed,
and which components' `render_content` ran. -/
structure FrameEffects where
  cleared : Bool
  flushed : Bool
  renderedLog : List ℕ
deriving Repr

/-- The `RenderEngine` fields driving `needs_redraw`/`render_frame`,
together with the mock backend's current screen size (height, width). -/
structure EngineState where
  screenSize : ℤ × ℤ
  lastScreenSize : ℤ × ℤ
  forceRedraw : Bool
  frameCount : ℕ
  renderTimes : List ℚ
  root : Option RTree

/-- The rolling render-time history: append, then drop the oldest entry
once the length exceeds the bound (engine.py lines 286-288, bound 100). -/
def capHistory (l : List ℚ) (maxLen : ℕ) : List ℚ :=
  if maxLen < l.length then l.drop 1 else l

/-- `RenderEngine.needs_redraw` (engine.py lines 226-246): a screen-size
change updates the remembered size and invalidates the root as a side
effect; otherwise the force flag, then the root's render state, decide.
Returns the decision together with the possibly updated engine. -/
def needsRedrawRun (st : EngineState) : Bool × EngineState :=
  if st.screenSize ≠ st.lastScreenSize then
    (true, { st with
              lastScreenSize := st.screenSize,
              root := st.root.map invalidateT })
  else if st.forceRedraw then (true, st)
  else
    match st.root with
    | some r =>
      if renderStateOf (treeData r) = RState.DIRTY ∨
          renderStateOf (treeData r) = RState.INVALIDATED then (true, st)
      else (false, st)
    | none => (false, st)

/-- `RenderEngine.render_frame` (engine.py lines 248-288): return
immediately unless `needs_redraw()`; otherwise clear the root window
only under the force flag, render the root with a full-screen context,
refresh the backend, clear the force flag, bump the frame counter and
append the frame duration to the capped history.  The wall-clock
duration is an input of the embedding. -/
def renderFrame (st : EngineState) (duration : ℚ) : EngineState × FrameEffects :=
  match needsRedrawRun st with
  | (false, st1) => (st1, ⟨false, false, []⟩)
  | (true, st1) =>
    let cleared := st1.forceRedraw
    let rendered : Option RTree × List ℕ :=
      match st1.root with
      | some r =>
        let rl := renderT (depthT r) r
          ⟨0, 0, st1.screenSize.2, st1.screenSize.1⟩
        (some rl.1, rl.2)
      | none => (none, [])
    ({ st1 with
        root := rendered.1,
        forceRedraw := false,
        frameCount := st1.frameCount + 1,
        renderTimes := capHistory (st1.renderTimes ++ [duration]) 100 },
     ⟨cleared, true, rendered.2⟩)

/-- Dirty-checking specification of one `render` call on a subtree with
enough fuel: a tree whose every node needs repainting logs exactly the
visible-reachable identities, and — when no `render_content` raises — a
second `render` with the same context is a no-op (same tree, empty
log). -/
def RenderSpecT (g : ℕ) (t : RTree) (ctx : Ctx) : Prop :=
  (needT t = true → (renderT g t ctx).2 = visListT t) ∧
  (noRaiseT t = true →
    renderT g (renderT g t ctx).1 ctx = ((renderT g t ctx).1, []))

/-- `RenderSpecT` for a children list. -/
def RenderSpecL (g : ℕ) (ts : RTreeList) (ctx : Ctx) : Prop :=
  (needL ts = true → (renderList g ts ctx).2 = visListL ts) ∧
  (noRaiseL ts = true →
    renderList g (renderList g ts ctx).1 ctx = ((renderList g ts ctx).1, []))

/-- Example render tree: a dirty visible root (id 0) with one dirty
visible child (id 1); no `render_content` raises. -/
def exTree : RTree :=
  RTree.node ⟨0, RState.DIRTY, (0, 0), (0, 0), true, false⟩
    (RTreeList.cons
      (RTree.node ⟨1, RState.DIRTY, (0, 0), (0, 0), true, false⟩
        RTreeList.nil)
      RTreeList.nil)

/-- Example render tree: a dirty visible leaf whose `render_content`
raises, with geometry matching the example context `exCtx`. -/
def exRaiser : RTree :=
  RTree.node ⟨0, RState.DIRTY, (5, 5), (0, 0), true, true⟩ RTreeList.nil

/-- The context used with `exRaiser`. -/
def exCtx : Ctx := ⟨0, 0, 5, 5⟩

/-- Example engine state: clean visible root, screen size matching the
remembered size, force flag clear. -/
def exEngine : EngineState where
  screenSize := (5, 10)
  lastScreenSize := (5, 10)
  forceRedraw := false
  frameCount := 7
  renderTimes := [1]
  root := some (RTree.node ⟨0, RState.CLEAN, (10, 5), (0, 0), true, false⟩
    RTreeList.nil)

/-! ### Structural lemmas about the heap operations -/

theorem hset_same (h : Heap) (i : ℕ) (c : HComp) : hset h i c i = c := by
  simp [hset]

theorem hset_other (h : Heap) (i j : ℕ) (c : HComp) (hne : j ≠ i) :
    hset h i c j = h j := by
  simp [hset, hne]

/-- `mark_dirty` only touches render states: the visibility flag, the
children list, the parent reference and the content reference of every
component are untouched. -/
theorem markDirtyH_struct (fuel : ℕ) :
    ∀ (i : ℕ) (h : Heap) (j : ℕ),
      ((markDirtyH fuel i h) j).visible = (h j).visible ∧
      ((markDirtyH fuel i h) j).children = (h j).children ∧
      ((markDirtyH fuel i h) j).parent = (h j).parent ∧
      ((markDirtyH fuel i h) j).content = (h j).content := by
  induction fuel with
  | zero => intro i h j; simp [markDirtyH]
  | succ n ih =>
    intro i h j
    simp only [markDirtyH]
    set h1 := hset h i { h i with rstate := markDirtyStep (h i).rstate }
      with hh1
    have hstep : (h1 j).visible = (h j).visible ∧
        (h1 j).children = (h j).children ∧
        (h1 j).parent = (h j).parent ∧ (h1 j).content = (h j).content := by
      rw [hh1]
      by_cases hji : j = i
      · subst hji; simp [hset]
      · simp [hset, hji]
    cases hpar : (h i).parent with
    | none => exact hstep
    | some p =>
      obtain ⟨t1, t2, t3, t4⟩ := ih p h1 j
      rw [t1, t2, t3, t4]
      exact hstep

/-- `mark_dirty` never downgrades an `INVALIDATED` component. -/
theorem markDirtyH_pres_inv (fuel : ℕ) :
    ∀ (i : ℕ) (h : Heap) (j : ℕ),
      (h j).rstate = RState.INVALIDATED →
      ((markDirtyH fuel i h) j).rstate = RState.INVALIDATED := by
  induction fuel with
  | zero => intro i h j hj; simpa [markDirtyH] using hj
  | succ n ih =>
    intro i h j hj
    simp only [markDirtyH]
    set h1 := hset h i { h i with rstate := markDirtyStep (h i).rstate }
      with hh1
    have hstep : (h1 j).rstate = RState.INVALIDATED := by
      rw [hh1]
      by_cases hji : j = i
      · subst hji; simp [hset, hj, markDirtyStep]
      · simpa [hset, hji] using hj
    cases hpar : (h i).parent with
    | none => exact hstep
    | some p => exact ih p h1 j hstep

/-- `invalidate` never downgrades an `INVALIDATED` component. -/
theorem invalidateH_pres_inv (fuel : ℕ) :
    ∀ (i : ℕ) (h : Heap) (j : ℕ),
      (h j).rstate = RState.INVALIDATED →
      ((invalidateH fuel i h) j).rstate = RState.INVALIDATED := by
  induction fuel with
  | zero => intro i h j hj; simpa [invalidateH] using hj
  | succ n ih =>
    intro i h j hj
    simp only [invalidateH]
    have hfold : ∀ (cs : List ℕ) (acc : Heap),
        (acc j).rstate = RState.INVALIDATED →
        ((cs.foldl (fun a c => invalidateH n c a) acc) j).rstate =
          RState.INVALIDATED := by
      intro cs
      induction cs with
      | nil => intro acc hacc; simpa using hacc
      | cons cHead cTail ihc =>
        intro acc hacc
        exact ihc _ (ih cHead acc j hacc)
    apply hfold
    by_cases hji : j = i
    · subst hji; simp [hset]
    · simpa [hset, hji] using hj

/-- C7: `mark_dirty` never downgrades `INVALIDATED` to `DIRTY`, across
any sequence of `mark_dirty` and `invalidate` calls on any components
of the heap. -/
theorem markDirty_never_downgrades_invalidated
    (fuel : ℕ) (ops : List HOp) (h : Heap) (j : ℕ)
    (hj : (h j).rstate = RState.INVALIDATED) :
    ((applyHOps fuel ops h) j).rstate = RState.INVALIDATED := by
  induction ops generalizing h with
  | nil => simpa [applyHOps] using hj
  | cons op rest ih =>
    have hstep : ((applyHOp fuel h op) j).rstate = RState.INVALIDATED := by
      cases op with
      | md i => exact markDirtyH_pres_inv fuel i h j hj
      | inv i => exact invalidateH_pres_inv fuel i h j hj
    simpa [applyHOps] using ih (applyHOp fuel h op) hstep

/-- `mark_dirty` can only leave a state alone or set it to `DIRTY`. -/
theorem markDirtyH_states (fuel : ℕ) :
    ∀ (i : ℕ) (h : Heap) (j : ℕ),
      ((markDirtyH fuel i h) j).rstate = (h j).rstate ∨
      ((markDirtyH fuel i h) j).rstate = RState.DIRTY := by
  induction fuel with
  | zero => intro i h j; left; simp [markDirtyH]
  | succ n ih =>
    intro i h j
    simp only [markDirtyH]
    set h1 := hset h i { h i with rstate := markDirtyStep (h i).rstate }
      with hh1
    have hstep : (h1 j).rstate = (h j).rstate ∨ (h1 j).rstate = RState.DIRTY := by
      rw [hh1]
      by_cases hji : j = i
      · subst hji
        simp only [hset_same]
        by_cases hs : (h j).rstate = RState.INVALIDATED
        · left; simp [markDirtyStep, hs]
        · right; simp [markDirtyStep, hs]
      · left; simp [hset, hji]
    cases hpar : (h i).parent with
    | none => exact hstep
    | some p =>
      rcases ih p h1 j with h2 | h2
      · rw [h2]; exact hstep
      · right; exact h2

/-- Witness for C7: component 0 starts `INVALIDATED`; after marking it
dirty twice, invalidating component 1 and marking the tree dirty again,
it is still `INVALIDATED`. -/
theorem markDirty_never_downgrades_invalidated_witness :
    ((hset initHeap 0 { freshComp with rstate := RState.INVALIDATED } 0).rstate
        = RState.INVALIDATED) ∧
    ((applyHOps 5 [HOp.md 0, HOp.md 0, HOp.inv 1, HOp.md 0]
        (hset initHeap 0 { freshComp with rstate := RState.INVALIDATED }) 0).rstate
        = RState.INVALIDATED) :=
  ⟨by decide, markDirty_never_downgrades_invalidated 5
    [HOp.md 0, HOp.md 0, HOp.inv 1, HOp.md 0]
    (hset initHeap 0 { freshComp with rstate := RState.INVALIDATED }) 0
    (by decide)⟩

/-! ### The attach/detach tree invariant (C3) -/

/-- `add_child` pointwise: the child's parent reference becomes `some p`
and the child is appended to `p`'s children; nothing else changes
structurally. -/
theorem addChildH_children (fuel p c : ℕ) (h : Heap) (q : ℕ) :
    ((addChildH fuel p c h) q).children =
      if q = p then (h p).children ++ [c] else (h q).children := by
  obtain ⟨-, t, -, -⟩ := markDirtyH_struct fuel p
    (hset (hset h c { h c with parent := some p }) p
      { (hset h c { h c with parent := some p }) p with
          children := ((hset h c { h c with parent := some p }) p).children ++ [c] }) q
  simp only [addChildH]
  rw [t]
  by_cases hqp : q = p
  · subst hqp
    by_cases hpc : q = c
    · subst hpc; simp [hset]
    · simp [hset, hpc]
  · by_cases hqc : q = c
    · subst hqc; simp [hset, hqp]
    · simp [hset, hqp, hqc]

theorem addChildH_parent (fuel p c : ℕ) (h : Heap) (x : ℕ) :
    ((addChildH fuel p c h) x).parent =
      if x = c then some p else (h x).parent := by
  obtain ⟨-, -, t, -⟩ := markDirtyH_struct fuel p
    (hset (hset h c { h c with parent := some p }) p
      { (hset h c { h c with parent := some p }) p with
          children := ((hset h c { h c with parent := some p }) p).children ++ [c] }) x
  simp only [addChildH]
  rw [t]
  by_cases hxp : x = p
  · subst hxp
    by_cases hxc : x = c
    · subst hxc; simp [hset]
    · simp [hset, hxc]
  · by_cases hxc : x = c
    · subst hxc; simp [hset, hxp]
    · simp [hset, hxp, hxc]

/-- `remove_child` pointwise, in the case where the child is present. -/
theorem removeChildH_children (fuel p c : ℕ) (h : Heap) (hm : c ∈ (h p).children)
    (q : ℕ) :
    ((removeChildH fuel p c h) q).children =
      if q = p then (h p).children.erase c else (h q).children := by
  obtain ⟨-, t, -, -⟩ := markDirtyH_struct fuel p
    (hset (hset h c { h c with parent := none }) p
      { (hset h c { h c with parent := none }) p with
          children := ((hset h c { h c with parent := none }) p).children.erase c }) q
  simp only [removeChildH, if_pos hm]
  rw [t]
  by_cases hqp : q = p
  · subst hqp
    by_cases hpc : q = c
    · subst hpc; simp [hset]
    · simp [hset, hpc]
  · by_cases hqc : q = c
    · subst hqc; simp [hset, hqp]
    · simp [hset, hqp, hqc]

theorem removeChildH_parent (fuel p c : ℕ) (h : Heap) (hm : c ∈ (h p).children)
    (x : ℕ) :
    ((removeChildH fuel p c h) x).parent =
      if x = c then none else (h x).parent := by
  obtain ⟨-, -, t, -⟩ := markDirtyH_struct fuel p
    (hset (hset h c { h c with parent := none }) p
      { (hset h c { h c with parent := none }) p with
          children := ((hset h c { h c with parent := none }) p).children.erase c }) x
  simp only [removeChildH, if_pos hm]
  rw [t]
  by_cases hxp : x = p
  · subst hxp
    by_cases hxc : x = c
    · subst hxc; simp [hset]
    · simp [hset, hxc]
  · by_cases hxc : x = c
    · subst hxc; simp [hset, hxp]
    · simp [hset, hxp, hxc]

theorem treeInv_addChildH (fuel p c : ℕ) (h : Heap)
    (hinv : TreeInv h) (hun : Unattached h c) :
    TreeInv (addChildH fuel p c h) := by
  obtain ⟨inv1, inv2, inv3⟩ := hinv
  obtain ⟨hupar, humem⟩ := hun
  refine ⟨?_, ?_, ?_⟩
  · intro q x hx
    rw [addChildH_children] at hx
    rw [addChildH_parent]
    by_cases hqp : q = p
    · subst hqp
      rw [if_pos rfl, List.mem_append] at hx
      rcases hx with hx | hx
      · have hxc : x ≠ c := fun hh => humem q (hh ▸ hx)
        rw [if_neg hxc]
        exact inv1 q x hx
      · have hxc : x = c := by simpa using hx
        subst hxc
        simp
    · rw [if_neg hqp] at hx
      have hxc : x ≠ c := fun hh => humem q (hh ▸ hx)
      rw [if_neg hxc]
      exact inv1 q x hx
  · intro q₁ q₂ x hx₁ hx₂
    rw [addChildH_children] at hx₁ hx₂
    by_cases hxc : x = c
    · subst hxc
      by_cases h₁ : q₁ = p
      · by_cases h₂ : q₂ = p
        · rw [h₁, h₂]
        · rw [if_neg h₂] at hx₂
          exact absurd hx₂ (humem q₂)
      · rw [if_neg h₁] at hx₁
        exact absurd hx₁ (humem q₁)
    · have hx₁' : x ∈ (h q₁).children := by
        by_cases h₁ : q₁ = p
        · subst h₁; rw [if_pos rfl, List.mem_append] at hx₁
          rcases hx₁ with hx₁ | hx₁
          · exact hx₁
          · exact absurd (by simpa using hx₁) hxc
        · rwa [if_neg h₁] at hx₁
      have hx₂' : x ∈ (h q₂).children := by
        by_cases h₂ : q₂ = p
        · subst h₂; rw [if_pos rfl, List.mem_append] at hx₂
          rcases hx₂ with hx₂ | hx₂
          · exact hx₂
          · exact absurd (by simpa using hx₂) hxc
        · rwa [if_neg h₂] at hx₂
      exact inv2 q₁ q₂ x hx₁' hx₂'
  · intro q x
    rw [addChildH_children]
    by_cases hqp : q = p
    · subst hqp
      rw [if_pos rfl, List.count_append]
      by_cases hxc : x = c
      · subst hxc
        have : (h q).children.count x = 0 :=
          List.count_eq_zero.mpr (humem q)
        simp [this]
      · have : List.count x [c] = 0 := by
          simp [List.count_cons, hxc]
        rw [this]
        simpa using inv3 q x
    · rw [if_neg hqp]
      exact inv3 q x

theorem treeInv_removeChildH (fuel p c : ℕ) (h : Heap) (hinv : TreeInv h) :
    TreeInv (removeChildH fuel p c h) := by
  by_cases hm : c ∈ (h p).children
  case neg =>
    simpa [removeChildH, hm] using hinv
  obtain ⟨inv1, inv2, inv3⟩ := hinv
  have hnotin : c ∉ (h p).children.erase c := by
    have h1 : (h p).children.count c ≤ 1 := inv3 p c
    have h2 : ((h p).children.erase c).count c = (h p).children.count c - 1 :=
      List.count_erase_self c (h p).children
    have h3 : ((h p).children.erase c).count c = 0 := by omega
    exact List.count_eq_zero.mp h3
  refine ⟨?_, ?_, ?_⟩
  · intro q x hx
    rw [removeChildH_children fuel p c h hm] at hx
    rw [removeChildH_parent fuel p c h hm]
    by_cases hqp : q = p
    · subst hqp
      rw [if_pos rfl] at hx
      have hxc : x ≠ c := fun hh => hnotin (hh ▸ hx)
      rw [if_neg hxc]
      exact inv1 q x (List.mem_of_mem_erase hx)
    · rw [if_neg hqp] at hx
      have hxc : x ≠ c := by
        intro hh
        subst hh
        exact hqp (inv2 q p x hx hm)
      rw [if_neg hxc]
      exact inv1 q x hx
  · intro q₁ q₂ x hx₁ hx₂
    rw [removeChildH_children fuel p c h hm] at hx₁ hx₂
    have hx₁' : x ∈ (h q₁).children := by
      by_cases h₁ : q₁ = p
      · subst h₁; rw [if_pos rfl] at hx₁; exact List.mem_of_mem_erase hx₁
      · rwa [if_neg h₁] at hx₁
    have hx₂' : x ∈ (h q₂).children := by
      by_cases h₂ : q₂ = p
      · subst h₂; rw [if_pos rfl] at hx₂; exact List.mem_of_mem_erase hx₂
      · rwa [if_neg h₂] at hx₂
    exact inv2 q₁ q₂ x hx₁' hx₂'
  · intro q x
    rw [removeChildH_children fuel p c h hm]
    by_cases hqp : q = p
    · subst hqp
      rw [if_pos rfl]
      exact le_trans (((h q).children.erase_sublist c).count_le x) (inv3 q x)
    · rw [if_neg hqp]
      exact inv3 q x

/-- C3 (amended): heaps built from fresh components through `add_child`
(of a not-currently-attached child) and `remove_child` satisfy the tree
invariant, and `remove_child` clears the detached child's parent
reference.  (`set_content` is excluded: see the counterexample.) -/
theorem attach_detach_tree_invariant :
    (∀ h : Heap, BuiltDisciplined h → TreeInv h) ∧
    (∀ (fuel p c : ℕ) (h : Heap), c ∈ (h p).children →
      ((removeChildH fuel p c h) c).parent = none) := by
  constructor
  · intro h hb
    induction hb with
    | init =>
      refine ⟨?_, ?_, ?_⟩ <;> intro p c <;> simp [initHeap, freshComp]
    | add fuel p c h _ hun ih => exact treeInv_addChildH fuel p c h ih hun
    | rem fuel p c h _ ih => exact treeInv_removeChildH fuel p c h ih
  · intro fuel p c h hm
    rw [removeChildH_parent fuel p c h hm, if_pos rfl]

/-- Witness for C3 (amended): a concrete disciplined build —
`addChild 1 2`, `addChild 0 1`, then `removeChild 1 2` — satisfies the
invariant, and the removed child's parent is cleared. -/
theorem attach_detach_tree_invariant_witness :
    (2 ∈ ((addChildH 3 0 1 (addChildH 3 1 2 initHeap)) 1).children) ∧
    ((removeChildH 3 1 2 (addChildH 3 0 1 (addChildH 3 1 2 initHeap))) 2).parent
      = none := by
  constructor
  · decide
  · exact attach_detach_tree_invariant.2 3 1 2
      (addChildH 3 0 1 (addChildH 3 1 2 initHeap)) (by decide)

/-- Counterexample for C3 as stated: after `BorderedContainer.set_content`
attaches component 1 to container 0, component 1 is in the container's
children list but its parent reference is NOT set to the container
(set_content never assigns `_parent`). -/
theorem set_content_breaks_tree_invariant :
    (1 ∈ ((setContentH 3 0 1 initHeap) 0).children) ∧
    ((setContentH 3 0 1 initHeap) 1).parent ≠ some 0 := by
  decide

/-! ### Upward dirty propagation (C6) -/

/-- The parent chain is insensitive to updates that keep every parent
reference. -/
theorem parentChain_hset (n : ℕ) (h : Heap) (i : ℕ) (c : HComp)
    (hc : c.parent = (h i).parent) :
    ∀ x, parentChain n x (hset h i c) = parentChain n x h := by
  induction n with
  | zero => intro x; simp [parentChain]
  | succ m ih =>
    intro x
    simp only [parentChain]
    have hx : ((hset h i c) x).parent = (h x).parent := by
      by_cases hxi : x = i
      · subst hxi; simp [hset, hc]
      · simp [hset, hxi]
    rw [hx]
    cases (h x).parent with
    | none => rfl
    | some p => simp only [ih p]

/-- The `mark_dirty` state step preserves the property of being
`INVALIDATED`, in both directions. -/
theorem hstep_inv_iff (h : Heap) (i j : ℕ) :
    ((hset h i { h i with rstate := markDirtyStep (h i).rstate }) j).rstate
      = RState.INVALIDATED ↔ (h j).rstate = RState.INVALIDATED := by
  by_cases hji : j = i
  · subst hji
    simp only [hset_same]
    by_cases hs : (h j).rstate = RState.INVALIDATED
    · simp [markDirtyStep, hs]
    · simp [markDirtyStep, hs]
  · simp [hset, hji]

/-- The component `mark_dirty` is called on ends up `DIRTY`, or stays
`INVALIDATED`. -/
theorem markDirtyH_self (fuel : ℕ) (i : ℕ) (h : Heap) :
    ((markDirtyH (fuel + 1) i h) i).rstate = RState.DIRTY ∨
    ((h i).rstate = RState.INVALIDATED ∧
      ((markDirtyH (fuel + 1) i h) i).rstate = RState.INVALIDATED) := by
  simp only [markDirtyH]
  set h1 := hset h i { h i with rstate := markDirtyStep (h i).rstate } with hh1
  have h1i : (h1 i).rstate = markDirtyStep (h i).rstate := by
    rw [hh1]; simp [hset]
  by_cases hs : (h i).rstate = RState.INVALIDATED
  · right
    refine ⟨hs, ?_⟩
    have h1inv : (h1 i).rstate = RState.INVALIDATED := by
      rw [h1i]; simp [markDirtyStep, hs]
    cases hpar : (h i).parent with
    | none => exact h1inv
    | some p => exact markDirtyH_pres_inv fuel p h1 i h1inv
  · left
    have h1d : (h1 i).rstate = RState.DIRTY := by
      rw [h1i]; simp [markDirtyStep, hs]
    cases hpar : (h i).parent with
    | none => exact h1d
    | some p =>
      rcases markDirtyH_states fuel p h1 i with hst | hst
      · rw [hst, h1d]
      · exact hst

/-- C6 (amended): calling `mark_dirty()` on a component marks it and
every ancestor reachable through parent references `DIRTY` (each one
that was already `INVALIDATED` remains `INVALIDATED`).  This covers
every ancestor of an `add_child`-attached leaf; a `set_content` content
child has no parent reference, so nothing above it is reached — see the
counterexample. -/
theorem markDirtyH_ancestors (n : ℕ) :
    ∀ (i : ℕ) (h : Heap) (j : ℕ),
      j = i ∨ j ∈ parentChain n i h →
      ((markDirtyH (n + 1) i h) j).rstate = RState.DIRTY ∨
      ((h j).rstate = RState.INVALIDATED ∧
        ((markDirtyH (n + 1) i h) j).rstate = RState.INVALIDATED) := by
  induction n with
  | zero =>
    intro i h j hj
    have hj' : j = i := by simpa [parentChain] using hj
    subst hj'
    exact markDirtyH_self 0 j h
  | succ m ih =>
    intro i h j hj
    cases hpar : (h i).parent with
    | none =>
      have hj' : j = i := by
        rcases hj with hj | hj
        · exact hj
        · rw [parentChain, hpar] at hj
          simp at hj
      subst hj'
      exact markDirtyH_self (m + 1) j h
    | some p =>
      rcases hj with hj | hjc
      · subst hj
        exact markDirtyH_self (m + 1) j h
      · rw [parentChain, hpar] at hjc
        set h1 := hset h i { h i with rstate := markDirtyStep (h i).rstate }
          with hh1
        have hchain : parentChain m p h1 = parentChain m p h := by
          rw [hh1]
          exact parentChain_hset m h i _ (by simp) p
        have hjc1 : j = p ∨ j ∈ parentChain m p h1 := by
          rw [hchain]
          simpa using hjc
        have hrec : markDirtyH (m + 1 + 1) i h = markDirtyH (m + 1) p h1 := by
          simp only [markDirtyH, hpar, hh1]
        rw [hrec]
        rcases ih p h1 j hjc1 with hres | ⟨hinv1, hres⟩
        · left; exact hres
        · right
          exact ⟨(hstep_inv_iff h i j).mp (hh1 ▸ hinv1), hres⟩

/-- Witness for C6 (amended): in the `add_child`-built chain
2 → 1 → 0, component 0 is an ancestor of leaf 2, and after
`mark_dirty()` on 2 it is `DIRTY` (it was not `INVALIDATED`). -/
theorem markDirtyH_ancestors_witness :
    (0 = 2 ∨ 0 ∈ parentChain 3 2 exChainHeap) ∧
    (((markDirtyH 4 2 exChainHeap) 0).rstate = RState.DIRTY ∨
      ((exChainHeap 0).rstate = RState.INVALIDATED ∧
        ((markDirtyH 4 2 exChainHeap) 0).rstate = RState.INVALIDATED)) :=
  ⟨by decide, markDirtyH_ancestors 3 2 exChainHeap 0 (by decide)⟩

/-- Counterexample for C6 as stated: container 0 holds component 1 as
its `set_content` content child; both are `CLEAN` after a successful
render.  `mark_dirty()` on the content leaf marks the leaf `DIRTY` but
leaves the containing bordered container `CLEAN` — the marking does not
reach the ancestor, because `set_content` never set the content's
parent reference. -/
theorem set_content_breaks_dirty_propagation :
    (1 ∈ ((markDirtyH 5 1 exContentHeap) 0).children) ∧
    ((markDirtyH 5 1 exContentHeap) 1).rstate = RState.DIRTY ∧
    ((markDirtyH 5 1 exContentHeap) 0).rstate = RState.CLEAN := by
  decide

/-! ### Mock window writes are clipped to the backend grid (C4) -/

/-- The write loop touches no cell outside the written row segment, and
no cell outside the backend grid's columns. -/
theorem writeCells_frame (hgt wid absy attrs : ℤ) :
    ∀ (text : List Char) (curx : ℤ) (b : MockBuf) (y' x' : ℤ),
      (y' ≠ absy ∨ x' < curx ∨ curx + text.length ≤ x' ∨ x' < 0 ∨ wid ≤ x') →
      writeCells hgt wid absy attrs curx text b y' x' = b y' x' := by
  intro text
  induction text with
  | nil => intro curx b y' x' _; simp [writeCells]
  | cons c rest ih =>
    intro curx b y' x' hout
    simp only [writeCells]
    have hnext : y' ≠ absy ∨ x' < curx + 1 ∨ (curx + 1) + rest.length ≤ x'
        ∨ x' < 0 ∨ wid ≤ x' := by
      rcases hout with h | h | h | h | h
      · exact Or.inl h
      · exact Or.inr (Or.inl (by omega))
      · refine Or.inr (Or.inr (Or.inl ?_))
        simp only [List.length_cons] at h
        push_cast at h ⊢
        omega
      · exact Or.inr (Or.inr (Or.inr (Or.inl h)))
      · exact Or.inr (Or.inr (Or.inr (Or.inr h)))
    rw [ih (curx + 1) _ y' x' hnext]
    by_cases hg : 0 ≤ absy ∧ absy < hgt ∧ 0 ≤ curx ∧ curx < wid
    · rw [if_pos hg]
      have hcell : ¬(y' = absy ∧ x' = curx) := by
        rintro ⟨hy, hx⟩
        rcases hout with h | h | h | h | h
        · exact h hy
        · omega
        · simp only [List.length_cons] at h
          push_cast at h
          omega
        · omega
        · omega
      simp [bufSet, hcell]
    · rw [if_neg hg]

/-- C4 (amended): `MockWindow.add_str` never raises (it is a total
clipping write) and modifies no buffer cell outside the written row
segment nor any cell outside the backend grid's column range; in
particular, for the engine's full-screen root window (spec width equal
to the backend width, offset 0) no cell past the window's column bound
changes.  Clipping is against the backend grid, not the window's own
spec — see the counterexample. -/
theorem mockAddStr_frame (hgt wid : ℤ) (spec : WindowSpec) (b : MockBuf)
    (y x : ℤ) (text : List Char) (attrs : ℤ) (y' x' : ℤ)
    (hout : y' ≠ spec.y + y ∨ x' < spec.x + x ∨
      spec.x + x + text.length ≤ x' ∨ x' < 0 ∨ wid ≤ x') :
    mockAddStr hgt wid spec b y x text attrs y' x' = b y' x' :=
  writeCells_frame hgt wid (spec.y + y) attrs text (spec.x + x) b y' x' hout

/-- Witness for C4 (amended): writing `"AB"` at the origin of a 5-wide
window on a 3×10 backend leaves cell (0,2) (just past the written
segment) blank. -/
theorem mockAddStr_frame_witness :
    ((0 : ℤ) ≠ 0 + 0 ∨ (2 : ℤ) < 0 + 0 ∨
      (0 : ℤ) + 0 + ("AB".toList.length : ℤ) ≤ 2 ∨ (2 : ℤ) < 0 ∨ (10 : ℤ) ≤ 2) ∧
    mockAddStr 3 10 ⟨5, 3, 0, 0⟩ blankBuf 0 0 "AB".toList 0 0 2 = blankBuf 0 2 :=
  ⟨by decide, mockAddStr_frame 3 10 ⟨5, 3, 0, 0⟩ blankBuf 0 0 "AB".toList 0 0 2
    (by decide)⟩

/-- Counterexample for C4 as stated: on a 3×10 mock backend, a window
whose own spec is only 5 columns wide writes `"ABCDEFG"` straight
through its column bound — the buffer cell at column 5, just past the
window boundary, changes from blank to `'F'`.  `MockWindow.add_str`
clips against the backend grid, not the window's own bounds. -/
theorem mock_add_str_past_window_bound :
    (blankBuf 0 5).ch = ' ' ∧
    ((mockAddStr 3 10 ⟨5, 3, 0, 0⟩ blankBuf 0 0 "ABCDEFG".toList 0) 0 5).ch = 'F' ∧
    ((5 : ℤ) ≥ (⟨5, 3, 0, 0⟩ : WindowSpec).width) := by
  refine ⟨rfl, ?_, by decide⟩
  decide

/-! ### Bordered container title (C8) -/

/-- C8 (amended): the title is drawn only when the context is at least
6 columns wide; for widths of at least 7 the drawn text follows the
claimed truncation rule exactly (formatted title truncated to
`(width-4)-3` characters plus `"..."` when it exceeds `width-4`); at
width 10 any title longer than 6 characters is drawn truncated, ending
in the ellipsis and differing from the full formatted title; and the
drawn text is centered (left and right margins differ by at most one).
At width exactly 6 the claimed rule fails — see the counterexample. -/
theorem drawTitle_spec :
    (∀ (w : ℤ) (t : List Char), w < 6 → drawTitleText w t = none) ∧
    (∀ (w : ℤ) (t : List Char), 7 ≤ w → drawTitleText w t = claimTitleText w t) ∧
    (∀ t : List Char, 6 < (t.length : ℤ) →
      ∃ s, drawTitleText 10 t = some s ∧ ellipsis <:+ s ∧ s ≠ formatTitle t) ∧
    (∀ (w len : ℤ),
      drawTitleX 0 w len ≤ (w - len) - drawTitleX 0 w len ∧
      (w - len) - drawTitleX 0 w len ≤ drawTitleX 0 w len + 1) := by
  refine ⟨?_, ?_, ?_, ?_⟩
  · intro w t hw
    simp [drawTitleText, hw]
  · intro w t hw
    by_cases ht : t = [] ∨ w < 6
    · simp [drawTitleText, claimTitleText, ht]
    · have hslice : pySliceTo (formatTitle t) (w - 4 - 3) =
          (formatTitle t).take (w - 4 - 3).toNat := by
        rw [pySliceTo, if_pos (by omega)]
      simp only [drawTitleText, claimTitleText, if_neg ht]
      split_ifs with hlen
      · rw [hslice]
      · rfl
  · intro t ht
    have htne : ¬(t = [] ∨ (10 : ℤ) < 6) := by
      rintro (h | h)
      · subst h; simp at ht
      · omega
    have hflen : (formatTitle t).length = t.length + 2 := by
      simp [formatTitle]
    have hlong : (10 : ℤ) - 4 < ((formatTitle t).length : ℤ) := by
      rw [hflen]; push_cast; omega
    refine ⟨pySliceTo (formatTitle t) (10 - 4 - 3) ++ ellipsis, ?_, ?_, ?_⟩
    · rw [drawTitleText, if_neg htne, if_pos hlong]
    · exact List.suffix_append _ _
    · intro heq
      have h1 : (pySliceTo (formatTitle t) (10 - 4 - 3) ++ ellipsis).length =
          (formatTitle t).length := by rw [heq]
      have h2 : (pySliceTo (formatTitle t) (10 - 4 - 3)).length ≤ 3 := by
        have : pySliceTo (formatTitle t) (10 - 4 - 3) =
            (formatTitle t).take 3 := by
          rw [pySliceTo, if_pos (by omega)]
          rfl
        rw [this]
        simp [List.length_take]
      rw [List.length_append] at h1
      have h3 : ellipsis.length = 3 := rfl
      rw [hflen] at h1
      omega
  · intro w len
    have hdiv : drawTitleX 0 w len = (w - len).fdiv 2 := by
      simp [drawTitleX]
    have h1 : (w - len).fdiv 2 = (w - len) / 2 := Int.fdiv_eq_ediv _ (by omega)
    have h2 := Int.ediv_add_emod (w - len) 2
    have h3 : 0 ≤ (w - len) % 2 := Int.emod_nonneg _ (by omega)
    have h4 : (w - len) % 2 < 2 := Int.emod_lt_of_pos _ (by omega)
    rw [hdiv, h1]
    omega

/-- Witness for C8 (amended): width 5 omits the title; width 12 agrees
with the claimed truncation rule on "ABCDEFG"; width 10 with the
7-character title "ABCDEFG" yields a drawn string ending in the
ellipsis; and the centering margins for width 10, length 6 balance. -/
theorem drawTitle_spec_witness :
    drawTitleText 5 "ABCDEFG".toList = none ∧
    drawTitleText 12 "ABCDEFG".toList = claimTitleText 12 "ABCDEFG".toList ∧
    (∃ s, drawTitleText 10 "ABCDEFG".toList = some s ∧ ellipsis <:+ s ∧
      s ≠ formatTitle "ABCDEFG".toList) ∧
    (drawTitleX 0 10 6 ≤ (10 - 6) - drawTitleX 0 10 6 ∧
      (10 - 6) - drawTitleX 0 10 6 ≤ drawTitleX 0 10 6 + 1) :=
  ⟨drawTitle_spec.1 5 "ABCDEFG".toList (by decide),
   drawTitle_spec.2.1 12 "ABCDEFG".toList (by decide),
   drawTitle_spec.2.2.1 "ABCDEFG".toList (by decide),
   drawTitle_spec.2.2.2 10 6⟩

/-! ### Flex allocation (C2 and C10) -/

/-- Shape of first-pass allocation entries: every entry's configuration
comes from the input list; a fixed entry carries flex weight 0, a
flexible entry carries size 0 and its configured (or default) weight. -/
theorem pass1_mem_spec :
    ∀ (cfgs : List (Option ChildConfig)) (rem : ℤ) (a : Alloc),
      a ∈ (pass1 cfgs rem).1 →
      a.cfg ∈ cfgs ∧
      (∀ f, fixedOf a.cfg = some f → a.flexw = 0) ∧
      (fixedOf a.cfg = none → a.size = 0 ∧ a.flexw = flexWeight a.cfg) := by
  intro cfgs
  induction cfgs with
  | nil => intro rem a ha; simp [pass1] at ha
  | cons c cs ih =>
    intro rem a ha
    rcases hc : fixedOf c with _ | f
    · simp only [pass1, hc] at ha
      rcases List.mem_cons.mp ha with ha | ha
      · subst ha
        exact ⟨List.mem_cons_self c cs, by simp [hc], fun _ => ⟨rfl, rfl⟩⟩
      · obtain ⟨h1, h2, h3⟩ := ih rem a ha
        exact ⟨List.mem_cons_of_mem c h1, h2, h3⟩
    · simp only [pass1, hc] at ha
      rcases List.mem_cons.mp ha with ha | ha
      · subst ha
        refine ⟨List.mem_cons_self c cs, fun _ _ => rfl, fun hn => ?_⟩
        rw [hc] at hn
        cases hn
      · obtain ⟨h1, h2, h3⟩ := ih (rem - min f rem) a ha
        exact ⟨List.mem_cons_of_mem c h1, h2, h3⟩

/-- The first pass allocates exactly the difference between the incoming
and the remaining space, and the remaining space stays nonnegative. -/
theorem pass1_sum_rem :
    ∀ (cfgs : List (Option ChildConfig)) (rem : ℤ),
      ((pass1 cfgs rem).1.map Alloc.size).sum = rem - (pass1 cfgs rem).2.1 ∧
      (0 ≤ rem → 0 ≤ (pass1 cfgs rem).2.1) := by
  intro cfgs
  induction cfgs with
  | nil => intro rem; simp [pass1]
  | cons c cs ih =>
    intro rem
    rcases hc : fixedOf c with _ | f
    · obtain ⟨h1, h2⟩ := ih rem
      constructor
      · simp only [pass1, hc, List.map_cons, List.sum_cons]
        omega
      · intro hr
        simpa [pass1, hc] using h2 hr
    · obtain ⟨h1, h2⟩ := ih (rem - min f rem)
      constructor
      · simp only [pass1, hc, List.map_cons, List.sum_cons]
        omega
      · intro hr
        have : 0 ≤ rem - min f rem := by omega
        simpa [pass1, hc] using h2 this

/-- The accumulated total flex weight equals the sum of the entry
weights, and is independent of the available space. -/
theorem pass1_tf :
    ∀ (cfgs : List (Option ChildConfig)) (rem : ℤ),
      (pass1 cfgs rem).2.2 = ((pass1 cfgs rem).1.map Alloc.flexw).sum ∧
      (pass1 cfgs rem).2.2 = totalFlex cfgs := by
  have key : ∀ (cfgs : List (Option ChildConfig)) (rem rem' : ℤ),
      (pass1 cfgs rem).2.2 = ((pass1 cfgs rem).1.map Alloc.flexw).sum ∧
      (pass1 cfgs rem).2.2 = (pass1 cfgs rem').2.2 := by
    intro cfgs
    induction cfgs with
    | nil => intro rem rem'; simp [pass1]
    | cons c cs ih =>
      intro rem rem'
      rcases hc : fixedOf c with _ | f
      · obtain ⟨h1, h2⟩ := ih rem rem'
        constructor
        · simp only [pass1, hc, List.map_cons, List.sum_cons, h1]
          ring
        · simp only [pass1, hc, h2]
      · obtain ⟨h1, h2⟩ := ih (rem - min f rem) (rem' - min f rem')
        constructor
        · simp only [pass1, hc, List.map_cons, List.sum_cons, h1]
          ring
        · simp only [pass1, hc, h2]
  intro cfgs rem
  exact ⟨(key cfgs rem 0).1, (key cfgs rem 0).2⟩

/-- Positively-weighted first-pass entries correspond exactly to the
flexible children with positive configured (or default) weight. -/
theorem pass1_countPos :
    ∀ (cfgs : List (Option ChildConfig)) (rem : ℤ),
      countPosA (pass1 cfgs rem).1 = posFlexCount cfgs := by
  intro cfgs
  induction cfgs with
  | nil => intro rem; simp [pass1, countPosA, posFlexCount]
  | cons c cs ih =>
    intro rem
    rcases hc : fixedOf c with _ | f
    · have h := ih rem
      simp only [pass1, hc, countPosA, posFlexCount, List.filter_cons] at h ⊢
      by_cases hpos : 0 < flexWeight c
      · simp [hpos, hc, h]
      · simp [hpos, hc, h]
    · have h := ih (rem - min f rem)
      simp only [pass1, hc, countPosA, posFlexCount, List.filter_cons] at h ⊢
      simp [hc, h]

/-- With a zero min-size, the clamped proportional size is between 0 and
the floor of the exact share. -/
theorem flexSize_bounds (rem : ℤ) (tf : ℚ) (a : Alloc)
    (hmin : minOf a.cfg = 0) (hq : (0 : ℚ) ≤ (rem : ℚ) * (a.flexw / tf)) :
    flexSize rem tf a ≤ ⌊(rem : ℚ) * (a.flexw / tf)⌋ ∧
    (maxOf a.cfg = none → flexSize rem tf a = ⌊(rem : ℚ) * (a.flexw / tf)⌋) := by
  have hfl : pyInt ((rem : ℚ) * (a.flexw / tf)) =
      ⌊(rem : ℚ) * (a.flexw / tf)⌋ := by
    rw [pyInt, if_pos hq]
  have hnn : (0 : ℤ) ≤ ⌊(rem : ℚ) * (a.flexw / tf)⌋ := Int.floor_nonneg.mpr hq
  constructor
  · cases hmx : maxOf a.cfg with
    | none =>
      simp only [flexSize, hmx, hfl, hmin]
      rw [max_eq_left hnn]
    | some m =>
      simp only [flexSize, hmx, hfl, hmin]
      rw [max_eq_left hnn]
      exact min_le_left _ _
  · intro hmx
    simp only [flexSize, hmx, hfl, hmin]
    rw [max_eq_left hnn]

/-- Per-entry upper bound for the flex pass: with a zero min-size the
assigned size never exceeds the entry's exact proportional share. -/
theorem flexAssign_le (rem : ℤ) (tf : ℚ) (hrem : 0 < rem) (htf : 0 < tf)
    (a : Alloc) (hmin : minOf a.cfg = 0) (hw : 0 ≤ a.flexw)
    (hs : 0 < a.flexw → a.size = 0) :
    ((flexAssign rem tf a).size : ℚ) ≤
      (a.size : ℚ) + (rem : ℚ) / tf * a.flexw := by
  by_cases hpos : 0 < a.flexw
  · have hq : (0 : ℚ) ≤ (rem : ℚ) * (a.flexw / tf) := by positivity
    have hsz : (flexAssign rem tf a).size = flexSize rem tf a := by
      simp only [flexAssign, if_pos hpos]
    have hle := (flexSize_bounds rem tf a hmin hq).1
    have hzero : a.size = 0 := hs hpos
    rw [hsz, hzero]
    have h1 : ((flexSize rem tf a : ℤ) : ℚ) ≤ (rem : ℚ) * (a.flexw / tf) :=
      le_trans (by exact_mod_cast hle) (Int.floor_le _)
    have heq : (rem : ℚ) * (a.flexw / tf) = (rem : ℚ) / tf * a.flexw := by ring
    rw [heq] at h1
    push_cast
    linarith
  · have hz : a.flexw = 0 := le_antisymm (not_lt.mp hpos) hw
    simp [flexAssign, hz]

/-- Per-entry lower bound for the flex pass: with no min/max clamps the
assigned size undershoots the exact proportional share by less than
one. -/
theorem flexAssign_ge (rem : ℤ) (tf : ℚ) (hrem : 0 < rem) (htf : 0 < tf)
    (a : Alloc) (hmin : minOf a.cfg = 0) (hmx : maxOf a.cfg = none)
    (hw : 0 ≤ a.flexw) (hs : 0 < a.flexw → a.size = 0) :
    (a.size : ℚ) + (rem : ℚ) / tf * a.flexw -
      (if 0 < a.flexw then 1 else 0) ≤ ((flexAssign rem tf a).size : ℚ) := by
  by_cases hpos : 0 < a.flexw
  · have hq : (0 : ℚ) ≤ (rem : ℚ) * (a.flexw / tf) := by positivity
    have hsz : (flexAssign rem tf a).size = flexSize rem tf a := by
      simp only [flexAssign, if_pos hpos]
    have heq := (flexSize_bounds rem tf a hmin hq).2 hmx
    have hlow : (rem : ℚ) * (a.flexw / tf) - 1 <
        (⌊(rem : ℚ) * (a.flexw / tf)⌋ : ℚ) := Int.sub_one_lt_floor _
    have hzero : a.size = 0 := hs hpos
    rw [hsz, heq, hzero, if_pos hpos]
    push_cast
    have hring : (rem : ℚ) / tf * a.flexw = (rem : ℚ) * (a.flexw / tf) := by
      ring
    rw [hring]
    linarith
  · have hz : a.flexw = 0 := le_antisymm (not_lt.mp hpos) hw
    simp [flexAssign, hz]

/-- Sum form of the flex-pass upper bound. -/
theorem pass2_sum_le (allocs : List Alloc) (rem : ℤ) (tf : ℚ)
    (hmin : ∀ a ∈ allocs, minOf a.cfg = 0)
    (hw : ∀ a ∈ allocs, 0 ≤ a.flexw)
    (hs : ∀ a ∈ allocs, 0 < a.flexw → a.size = 0)
    (htf : (allocs.map Alloc.flexw).sum ≤ tf) (hrem : 0 ≤ rem) :
    ((pass2 allocs rem tf).map Alloc.size).sum ≤
      (allocs.map Alloc.size).sum + rem := by
  rw [pass2]
  split_ifs with hif
  · obtain ⟨htf0, hrem0⟩ := hif
    have key : ∀ l : List Alloc,
        (∀ a ∈ l, minOf a.cfg = 0) → (∀ a ∈ l, 0 ≤ a.flexw) →
        (∀ a ∈ l, 0 < a.flexw → a.size = 0) →
        (((l.map (flexAssign rem tf)).map Alloc.size).sum : ℚ) ≤
          ((l.map Alloc.size).sum : ℚ) +
            ((rem : ℚ) / tf) * (l.map Alloc.flexw).sum := by
      intro l
      induction l with
      | nil => intro _ _ _; simp
      | cons a l ihl =>
        intro h1 h2 h3
        have hA := flexAssign_le rem tf hrem0 htf0 a
          (h1 a (List.mem_cons_self a l)) (h2 a (List.mem_cons_self a l))
          (h3 a (List.mem_cons_self a l))
        have hI := ihl (fun b hb => h1 b (List.mem_cons_of_mem a hb))
          (fun b hb => h2 b (List.mem_cons_of_mem a hb))
          (fun b hb => h3 b (List.mem_cons_of_mem a hb))
        simp only [List.map_cons, List.sum_cons]
        push_cast
        push_cast at hI hA
        have hdist : ((rem : ℚ) / tf) * (a.flexw + (l.map Alloc.flexw).sum) =
            ((rem : ℚ) / tf) * a.flexw +
              ((rem : ℚ) / tf) * (l.map Alloc.flexw).sum := by ring
        rw [hdist]
        linarith
    have h1 := key allocs hmin hw hs
    have h2 : ((rem : ℚ) / tf) * (allocs.map Alloc.flexw).sum ≤
        ((rem : ℚ) / tf) * tf := by
      apply mul_le_mul_of_nonneg_left htf
      positivity
    have h3 : ((rem : ℚ) / tf) * tf = (rem : ℚ) :=
      div_mul_cancel₀ _ (ne_of_gt htf0)
    have h4 : (((allocs.map (flexAssign rem tf)).map Alloc.size).sum : ℚ) ≤
        ((allocs.map Alloc.size).sum : ℚ) + (rem : ℚ) := by linarith
    exact_mod_cast h4
  · omega

/-- Sum form of the flex-pass lower bound: with no min/max clamps the
total assigned size undershoots by less than one cell per
positive-weight entry. -/
theorem pass2_sum_ge (allocs : List Alloc) (rem : ℤ) (tf : ℚ)
    (hmin : ∀ a ∈ allocs, minOf a.cfg = 0)
    (hmx : ∀ a ∈ allocs, maxOf a.cfg = none)
    (hw : ∀ a ∈ allocs, 0 ≤ a.flexw)
    (hs : ∀ a ∈ allocs, 0 < a.flexw → a.size = 0)
    (htf : (allocs.map Alloc.flexw).sum = tf)
    (htf0 : 0 < tf) (hrem : 0 ≤ rem) :
    (allocs.map Alloc.size).sum + rem - countPosA allocs ≤
      ((pass2 allocs rem tf).map Alloc.size).sum := by
  rw [pass2]
  split_ifs with hif
  · obtain ⟨-, hrem0⟩ := hif
    have key : ∀ l : List Alloc,
        (∀ a ∈ l, minOf a.cfg = 0) → (∀ a ∈ l, maxOf a.cfg = none) →
        (∀ a ∈ l, 0 ≤ a.flexw) → (∀ a ∈ l, 0 < a.flexw → a.size = 0) →
        ((l.map Alloc.size).sum : ℚ) +
            ((rem : ℚ) / tf) * (l.map Alloc.flexw).sum - countPosA l ≤
          (((l.map (flexAssign rem tf)).map Alloc.size).sum : ℚ) := by
      intro l
      induction l with
      | nil => intro _ _ _ _; simp [countPosA]
      | cons a l ihl =>
        intro h1 h2 h3 h4
        have hA := flexAssign_ge rem tf hrem0 htf0 a
          (h1 a (List.mem_cons_self a l)) (h2 a (List.mem_cons_self a l))
          (h3 a (List.mem_cons_self a l)) (h4 a (List.mem_cons_self a l))
        have hI := ihl (fun b hb => h1 b (List.mem_cons_of_mem a hb))
          (fun b hb => h2 b (List.mem_cons_of_mem a hb))
          (fun b hb => h3 b (List.mem_cons_of_mem a hb))
          (fun b hb => h4 b (List.mem_cons_of_mem a hb))
        have hcnt : (countPosA (a :: l) : ℚ) =
            (if 0 < a.flexw then 1 else 0) + (countPosA l : ℚ) := by
          simp only [countPosA, List.filter_cons]
          by_cases hpos : 0 < a.flexw
          · simp [hpos]; ring
          · simp [hpos]
        simp only [List.map_cons, List.sum_cons]
        rw [hcnt]
        push_cast
        push_cast at hI hA
        have hdist : ((rem : ℚ) / tf) * (a.flexw + (l.map Alloc.flexw).sum) =
            ((rem : ℚ) / tf) * a.flexw +
              ((rem : ℚ) / tf) * (l.map Alloc.flexw).sum := by ring
        rw [hdist]
        linarith
    have h1 := key allocs hmin hmx hw hs
    rw [htf] at h1
    have h3 : ((rem : ℚ) / tf) * tf = (rem : ℚ) :=
      div_mul_cancel₀ _ (ne_of_gt htf0)
    rw [h3] at h1
    exact_mod_cast h1
  · have hr0 : rem = 0 := by
      rcases not_and_or.mp hif with h | h
      · exact absurd htf0 h
      · omega
    subst hr0
    have : (0 : ℤ) ≤ countPosA allocs := by positivity
    omega

/-- Entries of the second pass come from entries of the first pass with
the same configuration and weight; an entry without positive weight is
passed through unchanged. -/
theorem pass2_mem (allocs : List Alloc) (rem : ℤ) (tf : ℚ) (a : Alloc)
    (ha : a ∈ pass2 allocs rem tf) :
    ∃ b ∈ allocs, a.cfg = b.cfg ∧ a.flexw = b.flexw ∧
      (¬ 0 < b.flexw → a = b) := by
  rw [pass2] at ha
  split_ifs at ha with hif
  · obtain ⟨b, hb, hab⟩ := List.mem_map.mp ha
    subst hab
    refine ⟨b, hb, ?_, ?_, ?_⟩
    · by_cases hbp : 0 < b.flexw <;> simp [flexAssign, hbp]
    · by_cases hbp : 0 < b.flexw <;> simp [flexAssign, hbp]
    · intro hbp; simp [flexAssign, hbp]
  · exact ⟨a, ha, rfl, rfl, fun _ => rfl⟩

/-- The allocation list, unfolded to its two passes. -/
theorem calculateAllocations_eq (cfgs : List (Option ChildConfig))
    (space : ℤ) :
    calculateAllocations cfgs space =
      pass2 (pass1 cfgs space).1 (pass1 cfgs space).2.1
        (pass1 cfgs space).2.2 := rfl

/-- C2 (amended): over any visible-children configuration with
nonnegative flex weights and no `min_size` constraints, the sum of all
final allocated sizes never exceeds the main-axis budget; and when no
`max_size` is configured either and the total flex weight is positive,
the sum undershoots the budget by at most one cell per
positively-weighted flexible child (each flexible share is floored
independently and the remainder is not redistributed), rather than
exactly equalling the budget. -/
theorem flex_allocation_budget (cfgs : List (Option ChildConfig))
    (space : ℤ) (hspace : 0 ≤ space)
    (hw : ∀ c ∈ cfgs, 0 ≤ flexWeight c)
    (hmin : ∀ c ∈ cfgs, minOf c = 0) :
    (allocSizes cfgs space).sum ≤ space ∧
    ((∀ c ∈ cfgs, maxOf c = none) → 0 < totalFlex cfgs →
      space - posFlexCount cfgs ≤ (allocSizes cfgs space).sum) := by
  obtain ⟨hsum, hremnn⟩ := pass1_sum_rem cfgs space
  obtain ⟨htfsum, htfconst⟩ := pass1_tf cfgs space
  have hrem' := hremnn hspace
  have hmemspec := pass1_mem_spec cfgs space
  have hminA : ∀ a ∈ (pass1 cfgs space).1, minOf a.cfg = 0 :=
    fun a ha => hmin a.cfg (hmemspec a ha).1
  have hwA : ∀ a ∈ (pass1 cfgs space).1, 0 ≤ a.flexw := by
    intro a ha
    obtain ⟨hc, hfix, hflex⟩ := hmemspec a ha
    rcases hf : fixedOf a.cfg with _ | f
    · rw [(hflex hf).2]; exact hw a.cfg hc
    · rw [hfix f hf]
  have hsA : ∀ a ∈ (pass1 cfgs space).1, 0 < a.flexw → a.size = 0 := by
    intro a ha hpos
    obtain ⟨hc, hfix, hflex⟩ := hmemspec a ha
    rcases hf : fixedOf a.cfg with _ | f
    · exact (hflex hf).1
    · rw [hfix f hf] at hpos
      exact absurd hpos (lt_irrefl 0)
  have hunfold : (allocSizes cfgs space).sum =
      ((pass2 (pass1 cfgs space).1 (pass1 cfgs space).2.1
        (pass1 cfgs space).2.2).map Alloc.size).sum := by
    rw [allocSizes, calculateAllocations_eq]
  constructor
  · have hle := pass2_sum_le (pass1 cfgs space).1 (pass1 cfgs space).2.1
      (pass1 cfgs space).2.2 hminA hwA hsA (le_of_eq htfsum.symm) hrem'
    rw [hunfold]
    omega
  · intro hmax htf0
    have hmxA : ∀ a ∈ (pass1 cfgs space).1, maxOf a.cfg = none :=
      fun a ha => hmax a.cfg (hmemspec a ha).1
    have htfpos : 0 < (pass1 cfgs space).2.2 := htfconst ▸ htf0
    have hge := pass2_sum_ge (pass1 cfgs space).1 (pass1 cfgs space).2.1
      (pass1 cfgs space).2.2 hminA hmxA hwA hsA htfsum.symm htfpos hrem'
    rw [hunfold]
    rw [pass1_countPos cfgs space] at hge
    omega

/-- Witness for C2 (amended): the spec's own end-to-end scenario — a
vertical flex container with children `{fixed:3}`, `{flex:1}`,
`{flex:1}` in a 21-row region — allocates a total of exactly 21 ≤ 21,
and the lower bound 21 - 2 is satisfied. -/
theorem flex_allocation_budget_witness :
    (allocSizes [some ⟨some 3, 0, 0, none⟩, some ⟨none, 1, 0, none⟩,
        some ⟨none, 1, 0, none⟩] 21).sum ≤ 21 ∧
    (21 : ℤ) - posFlexCount [some ⟨some 3, 0, 0, none⟩,
        some ⟨none, 1, 0, none⟩, some ⟨none, 1, 0, none⟩] ≤
      (allocSizes [some ⟨some 3, 0, 0, none⟩, some ⟨none, 1, 0, none⟩,
        some ⟨none, 1, 0, none⟩] 21).sum :=
  ⟨(flex_allocation_budget _ 21 (by norm_num) (by norm_num [flexWeight])
      (by norm_num [minOf])).1,
   (flex_allocation_budget _ 21 (by norm_num) (by norm_num [flexWeight])
      (by norm_num [minOf])).2 (by norm_num [maxOf])
     (by norm_num [totalFlex, pass1, flexWeight, fixedOf])⟩

/-- Counterexample for C2 as stated: (a) three unconfigured flexible
children in a budget of 10 receive `int(10/3) = 3` each — the sum 9
falls short of the budget even though no min/max is configured and the
total flex weight is 3 > 0; (b) a flexible child with `min_size = 20`
in a budget of 10 receives 20 — the sum exceeds the budget although the
total configured fixed sizes (none) are at most the budget. -/
theorem flex_allocation_not_exact :
    allocSizes [none, none, none] 10 = [3, 3, 3] ∧
    (allocSizes [none, none, none] 10).sum ≠ 10 ∧
    0 < totalFlex [none, none, none] ∧
    allocSizes [some ⟨none, 1, 20, none⟩] 10 = [20] ∧
    ¬ (allocSizes [some ⟨none, 1, 20, none⟩] 10).sum ≤ 10 := by
  norm_num [allocSizes, calculateAllocations, pass1, pass2, flexAssign,
    flexSize, pyInt, flexWeight, fixedOf, minOf, maxOf, totalFlex]

/-- C10: a child configured through `add_child_with_config` with no
fixed size and the default `flex = 0.0` argument is allocated exactly 0
(its entry is skipped by the flex pass), even when main-axis space
remains; only a child with no configuration entry at all gets the
default weight 1.0 (`flexWeight none = 1`) and shares the remaining
space — concretely, next to such a zero-flex child it receives the
whole budget. -/
theorem default_flex_zero_child_gets_zero :
    (∀ (cfgs : List (Option ChildConfig)) (space : ℤ) (a : Alloc)
        (cc : ChildConfig),
      a ∈ calculateAllocations cfgs space → a.cfg = some cc →
      cc.fixed_size = none → cc.flex = 0 → a.size = 0) ∧
    flexWeight none = 1 ∧
    allocSizes [some ⟨none, 0, 0, none⟩, none] 10 = [0, 10] := by
  refine ⟨?_, rfl, by
    norm_num [allocSizes, calculateAllocations, pass1, pass2, flexAssign,
      flexSize, pyInt, flexWeight, fixedOf, minOf, maxOf]⟩
  intro cfgs space a cc ha hacc hfix hflex
  rw [calculateAllocations_eq] at ha
  obtain ⟨b, hb, hcfg, hflexw, hunch⟩ := pass2_mem _ _ _ a ha
  obtain ⟨-, -, hbflex⟩ := pass1_mem_spec cfgs space b hb
  have hbfix : fixedOf b.cfg = none := by
    rw [← hcfg, hacc]
    simpa [fixedOf] using hfix
  obtain ⟨hbsize, hbw⟩ := hbflex hbfix
  have hbw0 : b.flexw = 0 := by
    rw [hbw, ← hcfg, hacc]
    simpa [flexWeight] using hflex
  have hab : a = b := hunch (by rw [hbw0]; exact lt_irrefl 0)
  rw [hab, hbsize]

/-- Witness for C10: in the two-child configuration
`[configured with flex 0, unconfigured]` and budget 10, the configured
child's allocation entry is present and its size is 0. -/
theorem default_flex_zero_child_gets_zero_witness :
    ((⟨some ⟨none, 0, 0, none⟩, 0, 0⟩ : Alloc) ∈
      calculateAllocations [some ⟨none, 0, 0, none⟩, none] 10) ∧
    (⟨some ⟨none, 0, 0, none⟩, (0 : ℤ), (0 : ℚ)⟩ : Alloc).size = 0 :=
  ⟨by
    norm_num [calculateAllocations, pass1, pass2, flexAssign, flexSize,
      pyInt, flexWeight, fixedOf, minOf, maxOf],
   default_flex_zero_child_gets_zero.1 [some ⟨none, 0, 0, none⟩, none] 10
     ⟨some ⟨none, 0, 0, none⟩, 0, 0⟩ ⟨none, 0, 0, none⟩
     (by
       norm_num [calculateAllocations, pass1, pass2, flexAssign, flexSize,
         pyInt, flexWeight, fixedOf, minOf, maxOf])
     rfl rfl rfl⟩

/-- Counterexample for C8 as stated: at width exactly 6 the truncation
branch is taken (`" ABCDEFG "` is longer than `6 - 4 = 2`), but the
Python slice bound `(6-4)-3 = -1` counts from the end of the string, so
the code draws `" ABCDEFG..."` — 11 characters, far wider than the
claimed `(width-4)` result — instead of the claimed rule's `"..."`. -/
theorem drawTitle_width6_not_truncated :
    drawTitleText 6 "ABCDEFG".toList = some " ABCDEFG...".toList ∧
    claimTitleText 6 "ABCDEFG".toList = some "...".toList ∧
    ((" ABCDEFG...".toList.length : ℤ) > 6 - 4) := by
  refine ⟨?_, ?_, by decide⟩ <;> decide

/-! ### The render recursion: dirty-checking (C1, C5) -/

mutual

theorem invalidateT_depth : ∀ t : RTree, depthT (invalidateT t) = depthT t := by
  intro t
  cases t with
  | node d cs => rw [invalidateT, depthT, depthT, invalidateList_depth cs]

theorem invalidateList_depth :
    ∀ ts : RTreeList, depthL (invalidateList ts) = depthL ts := by
  intro ts
  cases ts with
  | nil => rfl
  | cons t ts =>
    rw [invalidateList, depthL, depthL, invalidateT_depth t,
      invalidateList_depth ts]

end

mutual

theorem invalidateT_noRaise :
    ∀ t : RTree, noRaiseT (invalidateT t) = noRaiseT t := by
  intro t
  cases t with
  | node d cs =>
    rw [invalidateT, noRaiseT, noRaiseT, invalidateList_noRaise cs]

theorem invalidateList_noRaise :
    ∀ ts : RTreeList, noRaiseL (invalidateList ts) = noRaiseL ts := by
  intro ts
  cases ts with
  | nil => rfl
  | cons t ts =>
    rw [invalidateList, noRaiseL, noRaiseL, invalidateT_noRaise t,
      invalidateList_noRaise ts]

end

mutual

theorem invalidateT_need : ∀ t : RTree, needT (invalidateT t) = true := by
  intro t
  cases t with
  | node d cs =>
    rw [invalidateT, needT]
    simp [invalidateList_need cs]

theorem invalidateList_need :
    ∀ ts : RTreeList, needL (invalidateList ts) = true := by
  intro ts
  cases ts with
  | nil => rfl
  | cons t ts =>
    rw [invalidateList, needL]
    simp [invalidateT_need t, invalidateList_need ts]

end

mutual

theorem invalidateT_visList (t : RTree) (ht : needT t = true) :
    visListT (invalidateT t) = visListT t := by
  cases t with
  | node d cs =>
    rw [needT] at ht
    simp only [Bool.and_eq_true, Bool.or_eq_true, decide_eq_true_eq] at ht
    have hvis : renderStateOf { d with rstate := RState.INVALIDATED } =
        RState.HIDDEN ↔ renderStateOf d = RState.HIDDEN := by
      rw [renderStateOf, renderStateOf]
      cases hv : d.visible
      · simp
      · simp only [if_pos rfl]
        constructor
        · intro hh; cases hh
        · intro hh
          rcases ht.1 with h | h <;> rw [h] at hh <;> cases hh
    rw [invalidateT, visListT, visListT]
    by_cases hh : renderStateOf d = RState.HIDDEN
    · rw [if_pos hh, if_pos (hvis.mpr hh)]
    · rw [if_neg hh, if_neg (fun hc => hh (hvis.mp hc)),
        invalidateList_visList cs ht.2]

theorem invalidateList_visList (ts : RTreeList) (hts : needL ts = true) :
    visListL (invalidateList ts) = visListL ts := by
  cases ts with
  | nil => rfl
  | cons t ts =>
    rw [needL] at hts
    simp only [Bool.and_eq_true] at hts
    rw [invalidateList, visListL, visListL, invalidateT_visList t hts.1,
      invalidateList_visList ts hts.2]

end

mutual

theorem visListT_sublist : ∀ t : RTree, List.Sublist (visListT t) (idsT t) := by
  intro t
  cases t with
  | node d cs =>
    rw [visListT, idsT]
    by_cases hh : renderStateOf d = RState.HIDDEN
    · rw [if_pos hh]; exact List.nil_sublist _
    · rw [if_neg hh]
      exact List.Sublist.cons₂ d.id (visListL_sublist cs)

theorem visListL_sublist : ∀ ts : RTreeList, List.Sublist (visListL ts) (idsL ts) := by
  intro ts
  cases ts with
  | nil => exact List.Sublist.refl []
  | cons t ts =>
    rw [visListL, idsL]
    exact List.Sublist.append (visListT_sublist t) (visListL_sublist ts)

end

theorem renderNodeData_fields (d : NodeData) :
    ((renderNodeData d).1).id = d.id ∧
    ((renderNodeData d).1).visible = d.visible ∧
    ((renderNodeData d).1).raises = d.raises ∧
    ((renderNodeData d).1).lastSize = d.lastSize ∧
    ((renderNodeData d).1).lastPos = d.lastPos := by
  rw [renderNodeData]
  split_ifs <;> simp

theorem renderNodeData_state_noraise (d : NodeData) (hr : d.raises = false) :
    ((renderNodeData d).1).rstate ≠ RState.DIRTY ∧
    ((renderNodeData d).1).rstate ≠ RState.INVALIDATED := by
  rw [renderNodeData]
  split_ifs with h hr2
  · rw [hr] at hr2; cases hr2
  · simp
  · push_neg at h
    exact h

theorem renderNodeData_log (d : NodeData)
    (h : d.rstate = RState.DIRTY ∨ d.rstate = RState.INVALIDATED) :
    (renderNodeData d).2 = [d.id] := by
  rw [renderNodeData, if_pos h]

theorem renderNodeData_noneed (d : NodeData)
    (h : ¬(d.rstate = RState.DIRTY ∨ d.rstate = RState.INVALIDATED)) :
    renderNodeData d = (d, []) := by
  rw [renderNodeData, if_neg h]

theorem geomUpdate_fields (d : NodeData) (ctx : Ctx) :
    (geomUpdate d ctx).id = d.id ∧
    (geomUpdate d ctx).visible = d.visible ∧
    (geomUpdate d ctx).raises = d.raises ∧
    (geomUpdate d ctx).rstate = RState.INVALIDATED ∧
    geomOk (geomUpdate d ctx) ctx := by
  refine ⟨rfl, rfl, rfl, rfl, ?_⟩
  rw [geomOk, geomUpdate]
  exact ⟨rfl, rfl⟩

theorem geomOk_congr (a b : NodeData) (ctx : Ctx)
    (hs : a.lastSize = b.lastSize) (hp : a.lastPos = b.lastPos) :
    geomOk a ctx ↔ geomOk b ctx := by
  rw [geomOk, geomOk, hs, hp]

theorem renderT_hidden (f : ℕ) (d : NodeData) (cs : RTreeList) (ctx : Ctx)
    (hh : renderStateOf d = RState.HIDDEN) :
    renderT (f + 1) (RTree.node d cs) ctx = (RTree.node d cs, []) := by
  rw [renderT, if_pos hh]

theorem renderT_geomOk (f : ℕ) (d : NodeData) (cs : RTreeList) (ctx : Ctx)
    (hh : ¬renderStateOf d = RState.HIDDEN) (hg : geomOk d ctx) :
    renderT (f + 1) (RTree.node d cs) ctx =
      (RTree.node (renderNodeData d).1 (renderList f cs ctx).1,
        (renderNodeData d).2 ++ (renderList f cs ctx).2) := by
  rw [renderT, if_neg hh, if_pos hg]

theorem renderT_geomBad (f : ℕ) (d : NodeData) (cs : RTreeList) (ctx : Ctx)
    (hh : ¬renderStateOf d = RState.HIDDEN) (hg : ¬geomOk d ctx) :
    renderT (f + 1) (RTree.node d cs) ctx =
      (RTree.node (renderNodeData (geomUpdate d ctx)).1
          (renderList f (invalidateList cs) ctx).1,
        (renderNodeData (geomUpdate d ctx)).2 ++
          (renderList f (invalidateList cs) ctx).2) := by
  rw [renderT, if_neg hh, if_neg hg]

theorem renderList_nil (f : ℕ) (ctx : Ctx) :
    renderList f RTreeList.nil ctx = (RTreeList.nil, []) := by
  cases f <;> rw [renderList]

theorem renderList_cons (f : ℕ) (t : RTree) (ts : RTreeList) (ctx : Ctx) :
    renderList f (RTreeList.cons t ts) ctx =
      (RTreeList.cons
        (if renderStateOf (treeData t) = RState.HIDDEN then (t, ([] : List ℕ))
          else renderT f t ctx).1
        (renderList f ts ctx).1,
        (if renderStateOf (treeData t) = RState.HIDDEN then (t, ([] : List ℕ))
          else renderT f t ctx).2 ++ (renderList f ts ctx).2) := by
  rw [renderList]

/-- The children-list spec follows from the node spec at the same
fuel. -/
theorem renderList_build (g : ℕ)
    (hT : ∀ (t : RTree) (ctx : Ctx), depthT t ≤ g → RenderSpecT g t ctx) :
    ∀ (ts : RTreeList) (ctx : Ctx), depthL ts ≤ g → RenderSpecL g ts ctx
  | RTreeList.nil, ctx, _ => by
    constructor
    · intro _; rw [renderList_nil, visListL]
    · intro _; rw [renderList_nil, renderList_nil]
  | RTreeList.cons t ts, ctx, hd => by
    rw [depthL] at hd
    have hdt : depthT t ≤ g := le_trans (Nat.le_max_left _ _) hd
    have hdts : depthL ts ≤ g := le_trans (Nat.le_max_right _ _) hd
    obtain ⟨ihtLog, ihtStab⟩ := hT t ctx hdt
    obtain ⟨ihtsLog, ihtsStab⟩ := renderList_build g hT ts ctx hdts
    constructor
    · intro hneed
      rw [needL] at hneed
      simp only [Bool.and_eq_true] at hneed
      rw [renderList_cons, visListL]
      by_cases hh : renderStateOf (treeData t) = RState.HIDDEN
      · have hvt : visListT t = [] := by
          cases t with
          | node d cs =>
            rw [treeData] at hh
            rw [visListT, if_pos hh]
        rw [if_pos hh, hvt, ihtsLog hneed.2]
      · rw [if_neg hh, ihtLog hneed.1, ihtsLog hneed.2]
    · intro hnr
      rw [noRaiseL] at hnr
      simp only [Bool.and_eq_true] at hnr
      rw [renderList_cons, renderList_cons]
      rw [ihtsStab hnr.2]
      by_cases hh : renderStateOf (treeData t) = RState.HIDDEN
      · rw [if_pos hh]
        rw [if_pos hh]
        rfl
      · rw [if_neg hh]
        by_cases hh2 :
            renderStateOf (treeData (renderT g t ctx).1) = RState.HIDDEN
        · rw [if_pos hh2]
          rfl
        · rw [if_neg hh2, ihtStab hnr.1]
          rfl

/-- Dirty-checking of `render`, jointly over nodes and children lists,
for any sufficient fuel. -/
theorem render_spec_all : ∀ g : ℕ,
    (∀ (t : RTree) (ctx : Ctx), depthT t ≤ g → RenderSpecT g t ctx) ∧
    (∀ (ts : RTreeList) (ctx : Ctx), depthL ts ≤ g → RenderSpecL g ts ctx) := by
  intro g
  induction g with
  | zero =>
    have hT0 : ∀ (t : RTree) (ctx : Ctx), depthT t ≤ 0 → RenderSpecT 0 t ctx := by
      intro t ctx hdt
      exfalso
      cases t with
      | node d cs => rw [depthT] at hdt; omega
    exact ⟨hT0, renderList_build 0 hT0⟩
  | succ f ihf =>
    obtain ⟨ihT, ihL⟩ := ihf
    have hT : ∀ (t : RTree) (ctx : Ctx), depthT t ≤ f + 1 →
        RenderSpecT (f + 1) t ctx := by
      intro t ctx hdt
      cases t with
      | node d cs =>
        rw [depthT] at hdt
        have hcs : depthL cs ≤ f := by omega
        by_cases hh : renderStateOf d = RState.HIDDEN
        · constructor
          · intro _
            rw [renderT_hidden f d cs ctx hh, visListT, if_pos hh]
          · intro _
            rw [renderT_hidden f d cs ctx hh, renderT_hidden f d cs ctx hh]
        · by_cases hg : geomOk d ctx
          · obtain ⟨hQlog, hQstab⟩ := ihL cs ctx hcs
            constructor
            · intro hneed
              rw [needT] at hneed
              simp only [Bool.and_eq_true, Bool.or_eq_true,
                decide_eq_true_eq] at hneed
              rw [renderT_geomOk f d cs ctx hh hg,
                renderNodeData_log d hneed.1, hQlog hneed.2, visListT,
                if_neg hh]
              rfl
            · intro hnr
              rw [noRaiseT] at hnr
              simp only [Bool.and_eq_true, Bool.not_eq_true'] at hnr
              rw [renderT_geomOk f d cs ctx hh hg]
              obtain ⟨hid, hvis, hrs, hls, hlp⟩ := renderNodeData_fields d
              obtain ⟨hnd1, hnd2⟩ := renderNodeData_state_noraise d hnr.1
              by_cases hh2 :
                  renderStateOf (renderNodeData d).1 = RState.HIDDEN
              · rw [renderT_hidden f _ _ ctx hh2]
              · have hg2 : geomOk (renderNodeData d).1 ctx :=
                  (geomOk_congr (renderNodeData d).1 d ctx hls hlp).mpr hg
                rw [renderT_geomOk f _ _ ctx hh2 hg2,
                  renderNodeData_noneed (renderNodeData d).1
                    (not_or.mpr ⟨hnd1, hnd2⟩),
                  hQstab hnr.2]
                rfl
          · obtain ⟨hQlog, hQstab⟩ := ihL (invalidateList cs) ctx
              (by rw [invalidateList_depth]; exact hcs)
            constructor
            · intro hneed
              rw [needT] at hneed
              simp only [Bool.and_eq_true, Bool.or_eq_true,
                decide_eq_true_eq] at hneed
              obtain ⟨gid, gvis, grs, grst, ggeom⟩ := geomUpdate_fields d ctx
              rw [renderT_geomBad f d cs ctx hh hg,
                renderNodeData_log (geomUpdate d ctx) (Or.inr grst),
                hQlog (invalidateList_need cs),
                invalidateList_visList cs hneed.2, visListT, if_neg hh, gid]
              rfl
            · intro hnr
              rw [noRaiseT] at hnr
              simp only [Bool.and_eq_true, Bool.not_eq_true'] at hnr
              rw [renderT_geomBad f d cs ctx hh hg]
              obtain ⟨hid, hvis, hrs, hls, hlp⟩ :=
                renderNodeData_fields (geomUpdate d ctx)
              obtain ⟨gid, gvis, grs, grst, ggeom⟩ := geomUpdate_fields d ctx
              have hr1 : (geomUpdate d ctx).raises = false := by
                rw [grs]; exact hnr.1
              obtain ⟨hnd1, hnd2⟩ :=
                renderNodeData_state_noraise (geomUpdate d ctx) hr1
              by_cases hh2 :
                  renderStateOf (renderNodeData (geomUpdate d ctx)).1 =
                    RState.HIDDEN
              · rw [renderT_hidden f _ _ ctx hh2]
              · have hg2 : geomOk (renderNodeData (geomUpdate d ctx)).1 ctx :=
                  (geomOk_congr (renderNodeData (geomUpdate d ctx)).1
                    (geomUpdate d ctx) ctx hls hlp).mpr ggeom
                have hnrl : noRaiseL (invalidateList cs) = true := by
                  rw [invalidateList_noRaise]; exact hnr.2
                rw [renderT_geomOk f _ _ ctx hh2 hg2,
                  renderNodeData_noneed (renderNodeData (geomUpdate d ctx)).1
                    (not_or.mpr ⟨hnd1, hnd2⟩),
                  hQstab hnrl]
                rfl
    exact ⟨hT, renderList_build (f + 1) hT⟩

/-- C1 (amended): for a visible component whose state is `DIRTY` or
`INVALIDATED` (geometry unchanged), `render` invokes `render_content`
(the component's id heads the log) and always returns normally — the
children are still rendered afterwards, and the frame continues.  An
exception raised by `render_content` is caught and discarded, but the
state is set to `CLEAN` only when `render_content` returns without
raising; after an exception the state is left as it was (the
`mark_clean()` inside the `try:` block is skipped), so the component is
re-attempted on the next frame rather than marked `CLEAN`. -/
theorem render_exception_policy (fuel : ℕ) (d : NodeData) (cs : RTreeList)
    (ctx : Ctx) (hvis : d.visible = true) (hgeom : geomOk d ctx)
    (hstate : d.rstate = RState.DIRTY ∨ d.rstate = RState.INVALIDATED) :
    (renderT (fuel + 1) (RTree.node d cs) ctx).2 =
      d.id :: (renderList fuel cs ctx).2 ∧
    rootState (renderT (fuel + 1) (RTree.node d cs) ctx).1 =
      (if d.raises then d.rstate else RState.CLEAN) := by
  have hh : ¬renderStateOf d = RState.HIDDEN := by
    rw [renderStateOf, if_pos hvis]
    rcases hstate with h | h <;> rw [h] <;> intro hc <;> cases hc
  rw [renderT_geomOk fuel d cs ctx hh hgeom]
  constructor
  · rw [renderNodeData_log d hstate]
    rfl
  · rw [rootState, treeData, renderNodeData, if_pos hstate]
    by_cases hr : d.raises
    · rw [if_pos hr, if_pos hr]
    · rw [if_neg hr, if_neg hr]

/-- Witness for C1 (amended): the raising dirty leaf `exRaiser` under
the matching context `exCtx`. -/
theorem render_exception_policy_witness :
    geomOk ⟨0, RState.DIRTY, (5, 5), (0, 0), true, true⟩ exCtx ∧
    ((renderT 1 (RTree.node ⟨0, RState.DIRTY, (5, 5), (0, 0), true, true⟩
        RTreeList.nil) exCtx).2 =
      0 :: (renderList 0 RTreeList.nil exCtx).2) ∧
    rootState (renderT 1 (RTree.node ⟨0, RState.DIRTY, (5, 5), (0, 0), true,
        true⟩ RTreeList.nil) exCtx).1 =
      (if (⟨0, RState.DIRTY, (5, 5), (0, 0), true, true⟩ : NodeData).raises
        then RState.DIRTY else RState.CLEAN) :=
  ⟨by decide,
   (render_exception_policy 0 ⟨0, RState.DIRTY, (5, 5), (0, 0), true, true⟩
     RTreeList.nil exCtx rfl (by decide) (Or.inl rfl)).1,
   (render_exception_policy 0 ⟨0, RState.DIRTY, (5, 5), (0, 0), true, true⟩
     RTreeList.nil exCtx rfl (by decide) (Or.inl rfl)).2⟩

/-- Counterexample for C1 as stated: a visible `DIRTY` leaf whose
`render_content` raises is left `DIRTY` by `render` — its state is NOT
set to `CLEAN` after the exception (`mark_clean()` sits inside the
`try:` block, after the raising call). -/
theorem render_exception_not_clean :
    (renderT 1 exRaiser exCtx).2 = [0] ∧
    rootState (renderT 1 exRaiser exCtx).1 = RState.DIRTY ∧
    RState.DIRTY ≠ RState.CLEAN := by
  have h := renderT_geomOk 0 ⟨0, RState.DIRTY, (5, 5), (0, 0), true, true⟩
    RTreeList.nil exCtx (by decide) (by decide)
  have hex : exRaiser = RTree.node ⟨0, RState.DIRTY, (5, 5), (0, 0), true,
      true⟩ RTreeList.nil := rfl
  rw [hex, h, renderList_nil]
  refine ⟨by decide, by decide, by decide⟩

/-- C5: rendering a freshly assembled tree (every node `DIRTY` or
`INVALIDATED`, distinct ids) twice in a row with the same context, when
no `render_content` raises, invokes `render_content` exactly once per
reached (visible) component across the two calls: the second call logs
nothing and is a no-op for every component. -/
theorem render_twice_once (fuel : ℕ) (t : RTree) (ctx : Ctx)
    (hdepth : depthT t ≤ fuel) (hneed : needT t = true)
    (hnoraise : noRaiseT t = true) (hnodup : (idsT t).Nodup) :
    (renderT fuel (renderT fuel t ctx).1 ctx).2 = [] ∧
    ∀ i ∈ visListT t,
      ((renderT fuel t ctx).2 ++
        (renderT fuel (renderT fuel t ctx).1 ctx).2).count i = 1 := by
  obtain ⟨hlog, hstab⟩ := (render_spec_all fuel).1 t ctx hdepth
  have h2 := hstab hnoraise
  have h1 := hlog hneed
  constructor
  · rw [h2]
  · intro i hi
    rw [h2, h1]
    simp only [List.append_nil]
    have hnd : (visListT t).Nodup := (visListT_sublist t).nodup hnodup
    exact List.count_eq_one_of_mem hnd hi

/-- Witness for C5: the two-node dirty tree `exTree` rendered twice in a
10×5 context; the root (id 0) is rendered exactly once across the two
calls and the second call logs nothing. -/
theorem render_twice_once_witness :
    (depthT exTree ≤ 2 ∧ needT exTree = true ∧ noRaiseT exTree = true ∧
      (idsT exTree).Nodup ∧ 0 ∈ visListT exTree) ∧
    (renderT 2 (renderT 2 exTree ⟨0, 0, 10, 5⟩).1 ⟨0, 0, 10, 5⟩).2 = [] ∧
    ((renderT 2 exTree ⟨0, 0, 10, 5⟩).2 ++
      (renderT 2 (renderT 2 exTree ⟨0, 0, 10, 5⟩).1 ⟨0, 0, 10, 5⟩).2).count 0
      = 1 :=
  ⟨⟨by decide, by decide, by decide, by decide, by decide⟩,
   (render_twice_once 2 exTree ⟨0, 0, 10, 5⟩ (by decide) (by decide)
     (by decide) (by decide)).1,
   (render_twice_once 2 exTree ⟨0, 0, 10, 5⟩ (by decide) (by decide)
     (by decide) (by decide)).2 0 (by decide)⟩

/-! ### The engine frame loop (C9) -/

/-- C9: when the backend's screen size equals the last observed size,
the force-redraw flag is clear and the root component's render state is
neither `DIRTY` nor `INVALIDATED`, `render_frame()` changes nothing: the
engine state (frame counter, force flag, render-time history, remembered
size, component tree) is returned untouched, no component is rendered,
and the backend buffer is neither cleared nor flushed. -/
theorem renderFrame_noop (st : EngineState) (dur : ℚ) (r : RTree)
    (hsize : st.screenSize = st.lastScreenSize)
    (hforce : st.forceRedraw = false)
    (hroot : st.root = some r)
    (hdirty : renderStateOf (treeData r) ≠ RState.DIRTY)
    (hinv : renderStateOf (treeData r) ≠ RState.INVALIDATED) :
    renderFrame st dur = (st, ⟨false, false, []⟩) := by
  have hnr : needsRedrawRun st = (false, st) := by
    rw [needsRedrawRun, if_neg (by simp [hsize]), if_neg (by simp [hforce]),
      hroot]
    exact if_neg (by tauto)
  rw [renderFrame, hnr]

/-- Witness for C9: the concrete idle engine `exEngine` (clean visible
root, matching screen sizes, force flag clear): a frame call returns it
unchanged with no effects. -/
theorem renderFrame_noop_witness :
    renderFrame exEngine 0 = (exEngine, ⟨false, false, []⟩) :=
  renderFrame_noop exEngine 0
    (RTree.node ⟨0, RState.CLEAN, (10, 5), (0, 0), true, false⟩ RTreeList.nil)
    rfl rfl rfl (by decide) (by decide)

end HyperCmd
